import Mathlib

/-
Verification development for the commons-api WebSocket hub
(src/websocket.go) and its room-name sanitizer.

The Go source is shallowly embedded as follows:

* A `WSClient` pointer is modelled by a natural-number identifier.
  The fields of the client struct (`rooms map[int]bool`, the buffered
  `send` channel, `lastPing time.Time`) become the `CState` record:
  `crooms` is the key set of the membership map, the channel becomes the
  triple `qbuf`/`qcap`/`qclosed`, and `lastPing` is a natural-number
  timestamp in seconds.

* The `WSManager` struct becomes `HubState`: `clients` is the key set of
  the `map[*WSClient]bool`, `rooms` is the `map[int][]*WSClient`
  (an `Option` distinguishes a missing/nil slice from an empty one, which
  matters in `removeClientFromRoom`), `cs` assigns each client pointer its
  struct state, and `seen` is a ghost flag recording that a client pointer
  was ever created by `HandleConnection` (each Go pointer is registered at
  most once, which the model enforces through `seen`).

* The events consumed by the serialized `WSManager.run` loop, together
  with the client-side handlers that feed it, become the `Cmd` type and
  the `stepD` function.  A Go panic (send on a closed channel, double
  close) is modelled by returning `none`.  Broadcast deliveries are
  returned as an explicit event list so that temporal claims can be
  stated about them.

* Database and authorization collaborators (`IsUserInHall`,
  `GetRoomByID`, `SaveMessage`) are oracles passed as `Option` arguments:
  `none` models a call that returns an error.

* Go byte strings are modelled as `List Nat` (byte values); the claims
  about `cleanRoomName` concern ASCII bytes only.
-/

/-- State of one `WSClient` struct: membership-map key set, outbound
queue (buffer, capacity, closed flag) and last-liveness timestamp. -/
structure CState where
  crooms : List Nat
  qbuf : List Nat
  qcap : Nat
  qclosed : Bool
  lastPing : Nat
deriving DecidableEq

/-- State of the `WSManager`: live-client key set, room index
(`none` models a nil slice), per-client struct state, and the ghost
record of client pointers that have been created. -/
structure HubState where
  clients : List Nat
  rooms : Nat → Option (List Nat)
  cs : Nat → CState
  seen : Nat → Bool

/-- Client state created by `HandleConnection`: empty membership map,
empty outbound queue of capacity 256, open, lastPing = now. -/
def initCState (now : Nat) : CState :=
  { crooms := [], qbuf := [], qcap := 256, qclosed := false, lastPing := now }

/-- The hub state before any connection exists. -/
def initState : HubState :=
  { clients := [], rooms := fun _ => none, cs := fun _ => initCState 0,
    seen := fun _ => false }

/-- Member list of a room; a nil slice iterates like an empty one. -/
def membersOf (s : HubState) (r : Nat) : List Nat :=
  (s.rooms r).getD []

/-- Replace the struct state of client c. -/
def updCS (s : HubState) (c : Nat) (st : CState) : HubState :=
  { s with cs := fun x => if x = c then st else s.cs x }

/-- Replace the member slice of room r. -/
def updRoom (s : HubState) (r : Nat) (l : List Nat) : HubState :=
  { s with rooms := fun x => if x = r then some l else s.rooms x }

/-- WSManager.addClientToRoom: make the slice if nil, return if the
client is already present, else append the client and set the key in the
client-side membership map. -/
def addClientToRoom (s : HubState) (c r : Nat) : HubState :=
  let l := membersOf s r
  if c ∈ l then s
  else
    updCS (updRoom s r (l ++ [c])) c
      { s.cs c with
        crooms := if r ∈ (s.cs c).crooms then (s.cs c).crooms
                  else r :: (s.cs c).crooms }

/-- WSManager.removeClientFromRoom: return early on a nil slice
(without touching the client-side map); otherwise remove the first
occurrence of the client from the slice and delete the key from the
client-side membership map. -/
def removeClientFromRoom (s : HubState) (c r : Nat) : HubState :=
  match s.rooms r with
  | none => s
  | some l =>
    let s1 := if c ∈ l then updRoom s r (l.erase c) else s
    updCS s1 c
      { s.cs c with crooms := (s.cs c).crooms.filter (fun y => y ≠ r) }

/-- The register case of WSManager.run composed with the client-struct
creation in HandleConnection.  A Go client pointer is fresh, hence
registering an already-seen client is not a real trace (`none`). -/
def registerStep (s : HubState) (c now : Nat) : Option HubState :=
  if s.seen c then none
  else some
    { clients := if c ∈ s.clients then s.clients else c :: s.clients,
      rooms := s.rooms,
      cs := fun x => if x = c then initCState now else s.cs x,
      seen := fun x => if x = c then true else s.seen x }

/-- The unregister case of WSManager.run: if the client is still live,
delete it from the client set, close its send channel (closing a closed
channel would panic: `none`), and remove it from every room listed in
its own membership map.  Unregistering a non-live client is a no-op. -/
def unregStep (s : HubState) (c : Nat) : Option HubState :=
  if c ∈ s.clients then
    if (s.cs c).qclosed then none
    else
      let s1 := updCS { s with clients := s.clients.filter (fun x => x ≠ c) }
        c { s.cs c with qclosed := true }
      some (((s.cs c).crooms).foldl (fun t r => removeClientFromRoom t c r) s1)
  else some s

/-- One iteration of the broadcast fan-out loop for client c: a send on
a closed channel panics (`none`), a send on a full channel falls to the
default branch which closes the channel and deletes the client from the
client set, otherwise the message is enqueued and recorded as a
delivery. -/
def pushOne (msg : Nat) (t : Option HubState × List (Nat × Nat)) (c : Nat) :
    Option HubState × List (Nat × Nat) :=
  match t with
  | (none, ds) => (none, ds)
  | (some s, ds) =>
    let q := s.cs c
    if q.qclosed then (none, ds)
    else if q.qbuf.length < q.qcap then
      (some (updCS s c { q with qbuf := q.qbuf ++ [msg] }), ds ++ [(c, msg)])
    else
      (some (updCS { s with clients := s.clients.filter (fun x => x ≠ c) }
        c { q with qclosed := true }), ds)

/-- The broadcast case of WSManager.run: snapshot the member slice of
the room and run the fan-out loop over it, accumulating deliveries. -/
def broadcastStep (s : HubState) (r msg : Nat) :
    Option HubState × List (Nat × Nat) :=
  (membersOf s r).foldl (fun t c => pushOne msg t c) (some s, [])

/-- WSClient.handleJoinRoom after decoding: proceed only when
IsUserInHall returns (true, nil) and GetRoomByID returns a room whose
HallID equals the claimed hall; each oracle is `none` on error.  Every
failing check returns without mutating anything or replying. -/
def handleJoinRoom (s : HubState) (c hall room : Nat)
    (mres : Option Bool) (rres : Option Nat) : HubState :=
  match mres with
  | some true =>
    match rres with
    | some h => if h = hall then addClientToRoom s c room else s
    | none => s
  | _ => s

/-- WSClient.handleLeaveRoom after decoding (the mutex around the call
is subsumed by the serialized command model). -/
def handleLeaveRoom (s : HubState) (c room : Nat) : HubState :=
  removeClientFromRoom s c room

/-- WSClient.handleSendMessage after decoding.  Returns (saveCalled,
emitted broadcast).  Content emptiness is checked first, then membership
of the room in the sender's own map; only then is SaveMessage called
(oracle `saveRes`, `none` on error); on success a broadcast of the
persisted record to the room is emitted onto the hub's broadcast
channel.  The payload of the emitted broadcast is the persisted record
returned by SaveMessage. -/
def handleSendMessage (s : HubState) (c room : Nat) (content : List Nat)
    (saveRes : Option Nat) : Bool × Option (Nat × Nat) :=
  if content = [] then (false, none)
  else if room ∈ (s.cs c).crooms then
    match saveRes with
    | none => (true, none)
    | some rec0 => (true, some (room, rec0))
  else (false, none)

/-- The ping case of WSClient.handleMessage: refresh lastPing (the
UpdateUserLastSeen collaborator call is reported by the caller). -/
def pingStep (s : HubState) (c now : Nat) : HubState :=
  updCS s c { s.cs c with lastPing := now }

/-- The pong handler installed in WSClient.readPump: refresh
lastPing. -/
def pongStep (s : HubState) (c now : Nat) : HubState :=
  updCS s c { s.cs c with lastPing := now }

/-- One WSClient.writePump receive: take the head of the queue if any
message is buffered. -/
def drainStep (s : HubState) (c : Nat) : HubState :=
  updCS s c { s.cs c with qbuf := (s.cs c).qbuf.tail }

/-- Inbound application messages, as decoded by WSClient.readPump and
dispatched by WSClient.handleMessage.  Collaborator results ride along
as oracle fields. -/
inductive InMsg where
  | joinRoom (hall room : Nat) (mres : Option Bool) (rres : Option Nat)
  | leaveRoom (room : Nat)
  | sendMessage (room : Nat) (content : List Nat) (saveRes : Option Nat)
  | pingMsg
  | unknown
deriving DecidableEq

/-- True exactly for the "ping" message type. -/
def isPing : InMsg → Bool
  | InMsg.pingMsg => true
  | _ => false

/-- WSClient.handleMessage: dispatch on the decoded type.  `now` is the
decode time; the returned Bool records whether the UpdateUserLastSeen
collaborator was called.  A send_message mutates no hub state itself
(its broadcast is emitted separately, see handleSendMessage); an
unknown type is logged and ignored. -/
def handleMessage (s : HubState) (c : Nat) (m : InMsg) (now : Nat) :
    HubState × Bool :=
  match m with
  | InMsg.joinRoom hall room mres rres =>
      (handleJoinRoom s c hall room mres rres, false)
  | InMsg.leaveRoom room => (handleLeaveRoom s c room, false)
  | InMsg.sendMessage _ _ _ => (s, false)
  | InMsg.pingMsg => (pingStep s c now, true)
  | InMsg.unknown => (s, false)

/-- The health-sweep timeout threshold of WSManager.checkClientHealth,
in seconds. -/
def healthTimeout : Nat := 60

/-- The period of the ticker driving the health sweep in WSManager.run,
in seconds. -/
def sweepPeriod : Nat := 30

/-- WSManager.checkClientHealth: the live clients whose liveness
timestamp is older than the 60-second threshold; the sweep closes each
of their transports. -/
def checkClientHealth (s : HubState) (now : Nat) : List Nat :=
  s.clients.filter (fun c => decide (healthTimeout < now - (s.cs c).lastPing))

/-- The health sweep together with its deterministic aftermath: closing
a client's transport makes its read loop terminate and submit the
unregister command for that client, so the post-sweep state is the fold
of unregStep over the swept clients. -/
def sweepAndReap (s : HubState) (now : Nat) : Option HubState :=
  (checkClientHealth s now).foldl
    (fun t c => match t with
      | none => none
      | some u => unregStep u c) (some s)

/-- Commands consumed by the serialized hub loop, together with the
client-side events that feed it.  Client-originated commands carry the
collaborator-oracle outcomes. -/
inductive Cmd where
  | register (c now : Nat)
  | unregister (c : Nat)
  | broadcast (r msg : Nat)
  | join (c hall room : Nat) (mres : Option Bool) (rres : Option Nat)
  | leave (c room : Nat)
  | ping (c now : Nat)
  | pong (c now : Nat)
  | drain (c : Nat)
  | sweep (now : Nat)
deriving DecidableEq

/-- One serialized step.  Returns the next state (`none` on a Go panic
or on an event that cannot occur in a real trace, such as re-registering
an existing client pointer or a command from a never-created client)
together with the broadcast deliveries the step performed. -/
def stepD (s : HubState) : Cmd → Option HubState × List (Nat × Nat)
  | Cmd.register c now => (registerStep s c now, [])
  | Cmd.unregister c => (unregStep s c, [])
  | Cmd.broadcast r msg => broadcastStep s r msg
  | Cmd.join c hall room mres rres =>
      (if s.seen c then some (handleJoinRoom s c hall room mres rres)
       else none, [])
  | Cmd.leave c room =>
      (if s.seen c then some (handleLeaveRoom s c room) else none, [])
  | Cmd.ping c now =>
      (if s.seen c then some (pingStep s c now) else none, [])
  | Cmd.pong c now =>
      (if s.seen c then some (pongStep s c now) else none, [])
  | Cmd.drain c =>
      (if s.seen c then some (drainStep s c) else none, [])
  | Cmd.sweep now => (sweepAndReap s now, [])

/-- Run a list of commands, stopping at a panic, and accumulate all
broadcast deliveries performed along the way (including those made
before a panic). -/
def runTrace (s : HubState) : List Cmd → Option HubState × List (Nat × Nat)
  | [] => (some s, [])
  | cmd :: rest =>
    match stepD s cmd with
    | (none, ds) => (none, ds)
    | (some s1, ds) =>
      let out := runTrace s1 rest
      (out.1, ds ++ out.2)

/-- States reachable by the serialized command loop from the empty
hub. -/
inductive Reachable : HubState → Prop where
  | init : Reachable initState
  | next {s : HubState} {cmd : Cmd} {s1 : HubState} :
      Reachable s → (stepD s cmd).1 = some s1 → Reachable s1

/-- Bidirectional membership consistency: a client is in a room's
member slice exactly when the room is a key of the client's own
membership map. -/
def Consistent (s : HubState) : Prop :=
  ∀ c r, c ∈ membersOf s r ↔ r ∈ (s.cs c).crooms

/-- The inductive invariant of the hub loop: membership consistency,
no duplicates in any member slice or in the client set, live clients
have open queues, and a never-created client is nowhere. -/
def HubInv (s : HubState) : Prop :=
  Consistent s ∧
  (∀ r, (membersOf s r).Nodup) ∧
  s.clients.Nodup ∧
  (∀ c, c ∈ s.clients → (s.cs c).qclosed = false) ∧
  (∀ c, s.seen c = false →
    (∀ r, c ∉ membersOf s r) ∧ c ∉ s.clients)

/-- The byte values removed by the regular expression
[!@$%^&*()_=]+ in cleanRoomName: ! @ $ % ^ & * ( ) _ = . -/
def bannedBytes : List Nat := [33, 64, 36, 37, 94, 38, 42, 40, 41, 95, 61]

/-- ASCII lowercasing of one byte (strings.ToLower restricted to the
ASCII range; the claims about cleanRoomName concern ASCII bytes). -/
def lowerByte (b : Nat) : Nat :=
  if 65 ≤ b ∧ b ≤ 90 then b + 32 else b

/-- One pass of strings.ReplaceAll(name, double-dash, single-dash):
left-to-right, non-overlapping. -/
def collapseOnce : List Nat → List Nat
  | [] => []
  | [a] => [a]
  | a :: b :: t =>
    if a = 45 ∧ b = 45 then 45 :: collapseOnce t
    else a :: collapseOnce (b :: t)

/-- strings.Contains(name, double-dash). -/
def hasDD : List Nat → Bool
  | a :: b :: t => (decide (a = 45) && decide (b = 45)) || hasDD (b :: t)
  | _ => false

/-- The double-dash elimination loop of cleanRoomName, with explicit
fuel: each pass that still finds a double dash strictly shortens the
string, so length-many passes suffice (collapseFuel_noDD below). -/
def collapseFuel : Nat → List Nat → List Nat
  | 0, l => l
  | n + 1, l => if hasDD l then collapseFuel n (collapseOnce l) else l

/-- The double-dash elimination loop of cleanRoomName. -/
def collapseAll (l : List Nat) : List Nat :=
  collapseFuel l.length l

/-- strings.TrimRight(name, dash): drop trailing dash bytes. -/
def trimDashes (l : List Nat) : List Nat :=
  (l.reverse.dropWhile (fun b => decide (b = 45))).reverse

/-- Step 1 of cleanRoomName: add a leading # (35) when absent
(strings.HasPrefix on one byte is a head test). -/
def withHash (l : List Nat) : List Nat :=
  if l.head? = some 35 then l else 35 :: l

/-- Step 3 of cleanRoomName: strings.ReplaceAll space-to-dash on one
byte. -/
def spaceToDash (b : Nat) : Nat :=
  if b = 32 then 45 else b

/-- Step 4 of cleanRoomName: a byte survives the removal regex exactly
when it is not one of the removed symbols. -/
def keepByte (b : Nat) : Bool :=
  decide (b ∉ bannedBytes)

/-- Steps 1-4 of cleanRoomName: leading #, lowercase, spaces to
dashes, deletion of the regex bytes. -/
def preClean (l : List Nat) : List Nat :=
  (((withHash l).map lowerByte).map spaceToDash).filter keepByte

/-- Steps 5-6 of cleanRoomName: the double-dash loop followed by
strings.TrimRight on dashes. -/
def squashed (l : List Nat) : List Nat :=
  trimDashes (collapseAll (preClean l))

/-- Step 7 of cleanRoomName: cut to 20 bytes, re-trimming a dash the
cut may have exposed. -/
def clipped (l : List Nat) : List Nat :=
  if 20 < (squashed l).length then trimDashes ((squashed l).take 20)
  else squashed l

/-- cleanRoomName from src/websocket.go on byte strings: ensure a
leading # (35), lowercase, turn spaces (32) into dashes (45), delete the
bytes matched by [!@$%^&*()_=]+, collapse runs of double dashes, trim
trailing dashes, cut to 20 bytes re-trimming any dash the cut exposed,
and reject results of fewer than two bytes. -/
def cleanRoomName (l : List Nat) : List Nat :=
  if (clipped l).length ≤ 1 then [] else clipped l

/-- The well-formedness the specification promises of every non-empty
cleaned room name: leading #, byte length between 2 and 20, no space,
no uppercase ASCII letter, none of the removed symbol bytes, no double
dash, no trailing dash. -/
def GoodName (l : List Nat) : Prop :=
  l.head? = some 35 ∧ 2 ≤ l.length ∧ l.length ≤ 20 ∧
  (∀ b ∈ l, b ≠ 32) ∧
  (∀ b ∈ l, ¬(65 ≤ b ∧ b ≤ 90)) ∧
  (∀ b ∈ l, b ∉ bannedBytes) ∧
  hasDD l = false ∧
  l.getLast? ≠ some 45

/-- The lowercasing map never produces an uppercase ASCII byte. -/
lemma lowerByte_not_upper (b : Nat) : ¬(65 ≤ lowerByte b ∧ lowerByte b ≤ 90) := by
  unfold lowerByte
  split <;> omega

/-- collapseOnce never lengthens the string. -/
lemma collapseOnce_length_le (l : List Nat) :
    (collapseOnce l).length ≤ l.length := by
  induction l using collapseOnce.induct with
  | case1 => simp [collapseOnce]
  | case2 a => simp [collapseOnce]
  | case3 a b t hab ih =>
    show (if a = 45 ∧ b = 45 then 45 :: collapseOnce t
          else a :: collapseOnce (b :: t)).length ≤ (a :: b :: t).length
    rw [if_pos hab]
    simp only [List.length_cons]
    omega
  | case4 a b t hab ih =>
    show (if a = 45 ∧ b = 45 then 45 :: collapseOnce t
          else a :: collapseOnce (b :: t)).length ≤ (a :: b :: t).length
    rw [if_neg hab]
    simp only [List.length_cons] at ih ⊢
    omega

/-- A pass of collapseOnce over a string that still contains a double
dash strictly shortens it. -/
lemma collapseOnce_length_lt (l : List Nat) :
    hasDD l = true → (collapseOnce l).length < l.length := by
  induction l using collapseOnce.induct with
  | case1 => intro h; simp [hasDD] at h
  | case2 a => intro h; simp [hasDD] at h
  | case3 a b t hab ih =>
    intro _
    show (if a = 45 ∧ b = 45 then 45 :: collapseOnce t
          else a :: collapseOnce (b :: t)).length < (a :: b :: t).length
    rw [if_pos hab]
    have hle := collapseOnce_length_le t
    simp only [List.length_cons]
    omega
  | case4 a b t hab ih =>
    intro h
    have h2 : hasDD (b :: t) = true := by
      simp [hasDD] at h
      rcases h with ⟨h1, h2⟩ | h
      · exact absurd ⟨h1, h2⟩ hab
      · exact h
    have := ih h2
    show (if a = 45 ∧ b = 45 then 45 :: collapseOnce t
          else a :: collapseOnce (b :: t)).length < (a :: b :: t).length
    rw [if_neg hab]
    simp only [List.length_cons] at this ⊢
    omega

/-- Every byte of a collapseOnce pass comes from the input. -/
lemma collapseOnce_subset (l : List Nat) (b : Nat) (h : b ∈ collapseOnce l) :
    b ∈ l := by
  induction l using collapseOnce.induct with
  | case1 => simp [collapseOnce] at h
  | case2 a => simp [collapseOnce] at h; simp [h]
  | case3 a c t hab ih =>
    simp [collapseOnce, hab] at h
    rcases h with h | h
    · simp [h, hab.1]
    · simp [ih h]
  | case4 a c t hab ih =>
    simp [collapseOnce, hab] at h
    rcases h with h | h
    · simp [h]
    · have := ih h
      simp at this
      rcases this with h | h <;> simp [h]

/-- collapseOnce keeps a non-dash head in place. -/
lemma collapseOnce_cons (a : Nat) (t : List Nat) (ha : a ≠ 45) :
    collapseOnce (a :: t) = a :: collapseOnce t := by
  cases t with
  | nil => simp [collapseOnce]
  | cons b t2 =>
    have : ¬(a = 45 ∧ b = 45) := by intro h; exact ha h.1
    simp [collapseOnce, this]

/-- With enough fuel the double-dash loop reaches a fixed point free of
double dashes. -/
lemma collapseFuel_noDD (n : Nat) (l : List Nat) (h : l.length ≤ n) :
    hasDD (collapseFuel n l) = false := by
  induction n generalizing l with
  | zero =>
    have : l = [] := List.length_eq_zero.mp (Nat.le_zero.mp h)
    subst this
    simp [collapseFuel, hasDD]
  | succ n ih =>
    by_cases hdd : hasDD l = true
    · have hlt := collapseOnce_length_lt l hdd
      simp [collapseFuel, hdd]
      exact ih _ (by omega)
    · simp at hdd
      simp [collapseFuel, hdd]

/-- Every byte surviving the double-dash loop comes from the input. -/
lemma collapseFuel_subset (n : Nat) (l : List Nat) (b : Nat)
    (h : b ∈ collapseFuel n l) : b ∈ l := by
  induction n generalizing l with
  | zero => simpa [collapseFuel] using h
  | succ n ih =>
    by_cases hdd : hasDD l = true
    · simp [collapseFuel, hdd] at h
      exact collapseOnce_subset l b (ih _ h)
    · simp at hdd
      simpa [collapseFuel, hdd] using h

/-- The double-dash loop keeps a non-dash head in place. -/
lemma collapseFuel_cons (n : Nat) (a : Nat) (t : List Nat) (ha : a ≠ 45) :
    ∃ u, collapseFuel n (a :: t) = a :: u := by
  induction n generalizing t with
  | zero => exact ⟨t, rfl⟩
  | succ n ih =>
    by_cases hdd : hasDD (a :: t) = true
    · rw [collapseFuel, if_pos hdd, collapseOnce_cons a t ha]
      exact ih _
    · simp at hdd
      exact ⟨t, by rw [collapseFuel, if_neg (by simp [hdd])]⟩

/-- A double-dash-free string is a fixed point of the loop. -/
lemma collapseFuel_fixed (n : Nat) (l : List Nat) (h : hasDD l = false) :
    collapseFuel n l = l := by
  cases n with
  | zero => rfl
  | succ n => simp [collapseFuel, h]

/-- A prefix of a double-dash-free string is double-dash-free. -/
lemma hasDD_take (k : Nat) (l : List Nat) (h : hasDD l = false) :
    hasDD (l.take k) = false := by
  induction l generalizing k with
  | nil => simp [List.take_nil, hasDD]
  | cons a t ih =>
    cases k with
    | zero => simp [hasDD]
    | succ k =>
      cases t with
      | nil => cases k <;> simp [hasDD]
      | cons b t2 =>
        simp only [hasDD, Bool.or_eq_false_iff] at h
        cases k with
        | zero => simp [hasDD]
        | succ k =>
          simp only [List.take_succ_cons, hasDD, Bool.or_eq_false_iff]
          exact ⟨h.1, by simpa [List.take_succ_cons] using ih (k + 1) h.2⟩

/-- dropWhile with a predicate failing on a is the identity past the
final a. -/
lemma dropWhile_append_single (p : Nat → Bool) (a : Nat) (hp : p a = false)
    (xs : List Nat) :
    List.dropWhile p (xs ++ [a]) = List.dropWhile p xs ++ [a] := by
  induction xs with
  | nil => simp [List.dropWhile, hp]
  | cons x xs ih =>
    by_cases hx : p x = true
    · simp [List.dropWhile, hx, ih]
    · simp at hx
      simp [List.dropWhile, hx]

/-- dropWhile removes an initial segment. -/
lemma dropWhile_eq_drop (p : Nat → Bool) (l : List Nat) :
    ∃ n, List.dropWhile p l = l.drop n := by
  induction l with
  | nil => exact ⟨0, rfl⟩
  | cons a t ih =>
    by_cases ha : p a = true
    · obtain ⟨n, hn⟩ := ih
      exact ⟨n + 1, by simp [List.dropWhile, ha, hn]⟩
    · simp at ha
      exact ⟨0, by simp [List.dropWhile, ha]⟩

/-- The head surviving dropWhile fails the predicate. -/
lemma head?_dropWhile (p : Nat → Bool) (l : List Nat) (b : Nat)
    (h : (List.dropWhile p l).head? = some b) : p b = false := by
  induction l with
  | nil => simp [List.dropWhile] at h
  | cons a t ih =>
    by_cases ha : p a = true
    · rw [List.dropWhile_cons_of_pos ha] at h
      exact ih h
    · simp at ha
      rw [List.dropWhile_cons_of_neg (by simp [ha])] at h
      simp at h
      rwa [h] at ha

/-- Trimming trailing dashes yields an initial segment of the input. -/
lemma trimDashes_eq_take (l : List Nat) : ∃ k, trimDashes l = l.take k := by
  obtain ⟨n, hn⟩ := dropWhile_eq_drop (fun b => decide (b = 45)) l.reverse
  refine ⟨l.length - n, ?_⟩
  unfold trimDashes
  rw [hn, List.reverse_drop]
  simp

/-- Every byte surviving the trim comes from the input. -/
lemma trimDashes_subset (l : List Nat) (b : Nat) (h : b ∈ trimDashes l) :
    b ∈ l := by
  obtain ⟨k, hk⟩ := trimDashes_eq_take l
  rw [hk] at h
  exact List.mem_of_mem_take h

/-- Trimming never lengthens the string. -/
lemma trimDashes_length_le (l : List Nat) :
    (trimDashes l).length ≤ l.length := by
  obtain ⟨k, hk⟩ := trimDashes_eq_take l
  rw [hk, List.length_take]
  omega

/-- Trimming keeps a double-dash-free string double-dash-free. -/
lemma trimDashes_noDD (l : List Nat) (h : hasDD l = false) :
    hasDD (trimDashes l) = false := by
  obtain ⟨k, hk⟩ := trimDashes_eq_take l
  rw [hk]
  exact hasDD_take k l h

/-- Trimming a string with a non-dash head keeps the head. -/
lemma trimDashes_cons (a : Nat) (t : List Nat) (ha : a ≠ 45) :
    trimDashes (a :: t) =
      a :: (t.reverse.dropWhile (fun b => decide (b = 45))).reverse := by
  unfold trimDashes
  rw [List.reverse_cons,
    dropWhile_append_single _ a (by simp [ha]) t.reverse,
    List.reverse_append]
  rfl

/-- A trimmed string does not end in a dash. -/
lemma trimDashes_getLast (l : List Nat) :
    (trimDashes l).getLast? ≠ some 45 := by
  unfold trimDashes
  rw [List.getLast?_reverse]
  intro hc
  have := head?_dropWhile (fun b => decide (b = 45)) l.reverse 45 hc
  simp at this

/-- A string not ending in a dash is a fixed point of the trim. -/
lemma trimDashes_fixed (l : List Nat) (h : l.getLast? ≠ some 45) :
    trimDashes l = l := by
  unfold trimDashes
  cases hrev : l.reverse with
  | nil =>
    have : l = [] := by simpa using congrArg List.reverse hrev
    simp [this]
  | cons b t =>
    have hb : l.getLast? = some b := by
      rw [← List.head?_reverse, hrev]
      rfl
    have hb45 : b ≠ 45 := by
      intro hc
      exact h (hc ▸ hb)
    rw [List.dropWhile_cons_of_neg (by simp [hb45]), ← hrev,
      List.reverse_reverse]

/-- The hash-prefix stage always yields a string headed by 35. -/
lemma withHash_cons (l : List Nat) : ∃ t, withHash l = 35 :: t := by
  unfold withHash
  cases l with
  | nil => exact ⟨[], by simp⟩
  | cons a t =>
    by_cases ha : a = 35
    · exact ⟨t, by simp [ha]⟩
    · exact ⟨a :: t, by simp [ha]⟩

/-- Lowercasing fixes a non-uppercase byte. -/
lemma lowerByte_id (b : Nat) (h : ¬(65 ≤ b ∧ b ≤ 90)) : lowerByte b = b := by
  simp [lowerByte, h]

/-- The space stage never produces a space. -/
lemma spaceToDash_ne_space (b : Nat) : spaceToDash b ≠ 32 := by
  unfold spaceToDash
  split <;> omega

/-- The space stage fixes a byte that is not a space. -/
lemma spaceToDash_id (b : Nat) (h : b ≠ 32) : spaceToDash b = b := by
  simp [spaceToDash, h]

/-- The space stage never produces an uppercase byte from a
non-uppercase one. -/
lemma spaceToDash_not_upper (b : Nat) (h : ¬(65 ≤ b ∧ b ≤ 90)) :
    ¬(65 ≤ spaceToDash b ∧ spaceToDash b ≤ 90) := by
  unfold spaceToDash
  split <;> omega

/-- The cleaning stages 1-4 yield a string headed by 35. -/
lemma preClean_cons (l : List Nat) : ∃ t, preClean l = 35 :: t := by
  obtain ⟨t, ht⟩ := withHash_cons l
  unfold preClean
  rw [ht]
  refine ⟨(((t.map lowerByte).map spaceToDash).filter keepByte), ?_⟩
  have h1 : lowerByte 35 = 35 := by norm_num [lowerByte]
  have h2 : spaceToDash 35 = 35 := by norm_num [spaceToDash]
  have h3 : keepByte 35 = true := by simp [keepByte, bannedBytes]
  simp [h1, h2, h3]

/-- No space survives the cleaning stages 1-4. -/
lemma preClean_no_space (l : List Nat) (b : Nat) (h : b ∈ preClean l) :
    b ≠ 32 := by
  unfold preClean at h
  have hb := (List.mem_filter.mp h).1
  obtain ⟨a, _, ha⟩ := List.mem_map.mp hb
  exact ha ▸ spaceToDash_ne_space a

/-- No uppercase ASCII byte survives the cleaning stages 1-4. -/
lemma preClean_no_upper (l : List Nat) (b : Nat) (h : b ∈ preClean l) :
    ¬(65 ≤ b ∧ b ≤ 90) := by
  unfold preClean at h
  have hb := (List.mem_filter.mp h).1
  obtain ⟨a, ha1, ha⟩ := List.mem_map.mp hb
  obtain ⟨a0, _, ha0⟩ := List.mem_map.mp ha1
  subst ha
  exact spaceToDash_not_upper a (ha0 ▸ lowerByte_not_upper a0)

/-- No removed symbol byte survives the cleaning stages 1-4. -/
lemma preClean_no_banned (l : List Nat) (b : Nat) (h : b ∈ preClean l) :
    b ∉ bannedBytes := by
  unfold preClean at h
  have hb := (List.mem_filter.mp h).2
  simpa [keepByte] using hb

/-- The squashing stages keep the leading 35. -/
lemma squashed_cons (l : List Nat) : ∃ t, squashed l = 35 :: t := by
  obtain ⟨t, ht⟩ := preClean_cons l
  unfold squashed collapseAll
  rw [ht]
  obtain ⟨u, hu⟩ := collapseFuel_cons (35 :: t).length 35 t (by omega)
  rw [hu, trimDashes_cons 35 u (by omega)]
  exact ⟨_, rfl⟩

/-- Every byte of the squashed string comes from the cleaned string. -/
lemma squashed_subset (l : List Nat) (b : Nat) (h : b ∈ squashed l) :
    b ∈ preClean l := by
  unfold squashed collapseAll at h
  exact collapseFuel_subset _ _ b (trimDashes_subset _ b h)

/-- The squashed string is double-dash-free. -/
lemma squashed_noDD (l : List Nat) : hasDD (squashed l) = false := by
  unfold squashed collapseAll
  exact trimDashes_noDD _ (collapseFuel_noDD _ _ (Nat.le_refl _))

/-- The squashed string does not end in a dash. -/
lemma squashed_getLast (l : List Nat) :
    (squashed l).getLast? ≠ some 45 :=
  trimDashes_getLast _

/-- The clipping stage keeps the leading 35. -/
lemma clipped_cons (l : List Nat) : ∃ t, clipped l = 35 :: t := by
  obtain ⟨t, ht⟩ := squashed_cons l
  unfold clipped
  by_cases hlen : 20 < (squashed l).length
  · rw [if_pos hlen, ht]
    rw [show (20 : Nat) = 19 + 1 from rfl, List.take_succ_cons,
      trimDashes_cons 35 _ (by omega)]
    exact ⟨_, rfl⟩
  · rw [if_neg hlen, ht]
    exact ⟨t, rfl⟩

/-- The clipped string has at most 20 bytes. -/
lemma clipped_length (l : List Nat) : (clipped l).length ≤ 20 := by
  unfold clipped
  by_cases hlen : 20 < (squashed l).length
  · rw [if_pos hlen]
    have h1 := trimDashes_length_le ((squashed l).take 20)
    have h2 : ((squashed l).take 20).length ≤ 20 := by
      rw [List.length_take]
      omega
    omega
  · rw [if_neg hlen]
    omega

/-- Every byte of the clipped string comes from the squashed string. -/
lemma clipped_subset (l : List Nat) (b : Nat) (h : b ∈ clipped l) :
    b ∈ squashed l := by
  unfold clipped at h
  by_cases hlen : 20 < (squashed l).length
  · rw [if_pos hlen] at h
    exact List.mem_of_mem_take (trimDashes_subset _ b h)
  · rwa [if_neg hlen] at h

/-- The clipped string is double-dash-free. -/
lemma clipped_noDD (l : List Nat) : hasDD (clipped l) = false := by
  unfold clipped
  by_cases hlen : 20 < (squashed l).length
  · rw [if_pos hlen]
    exact trimDashes_noDD _ (hasDD_take 20 _ (squashed_noDD l))
  · rw [if_neg hlen]
    exact squashed_noDD l

/-- The clipped string does not end in a dash. -/
lemma clipped_getLast (l : List Nat) :
    (clipped l).getLast? ≠ some 45 := by
  unfold clipped
  by_cases hlen : 20 < (squashed l).length
  · rw [if_pos hlen]
    exact trimDashes_getLast _
  · rw [if_neg hlen]
    exact squashed_getLast l

/-- cleanRoomName yields the empty string or a well-formed name. -/
lemma clean_good (l : List Nat) :
    cleanRoomName l = [] ∨ GoodName (cleanRoomName l) := by
  unfold cleanRoomName
  by_cases hlen : (clipped l).length ≤ 1
  · left
    rw [if_pos hlen]
  · right
    rw [if_neg hlen]
    obtain ⟨t, ht⟩ := clipped_cons l
    refine ⟨by rw [ht]; rfl, by omega, clipped_length l, ?_, ?_, ?_,
      clipped_noDD l, clipped_getLast l⟩
    · intro b hb
      exact preClean_no_space l b (squashed_subset l b (clipped_subset l b hb))
    · intro b hb
      exact preClean_no_upper l b (squashed_subset l b (clipped_subset l b hb))
    · intro b hb
      exact preClean_no_banned l b (squashed_subset l b (clipped_subset l b hb))

/-- A well-formed name is a fixed point of cleanRoomName. -/
lemma clean_fixed (m : List Nat) (hg : GoodName m) : cleanRoomName m = m := by
  obtain ⟨hhead, hlen2, hlen20, hsp, hup, hban, hdd, hlast⟩ := hg
  have hpre : preClean m = m := by
    unfold preClean withHash
    rw [if_pos hhead]
    have e1 : m.map lowerByte = m := by
      rw [List.map_congr_left (g := id) (fun a ha => lowerByte_id a (hup a ha))]
      exact List.map_id m
    rw [e1]
    have e2 : m.map spaceToDash = m := by
      rw [List.map_congr_left (g := id) (fun a ha => spaceToDash_id a (hsp a ha))]
      exact List.map_id m
    rw [e2]
    exact List.filter_eq_self.mpr (fun a ha => by simp [keepByte, hban a ha])
  have hsq : squashed m = m := by
    unfold squashed collapseAll
    rw [hpre, collapseFuel_fixed _ _ hdd, trimDashes_fixed _ hlast]
  have hcl : clipped m = m := by
    unfold clipped
    rw [hsq, if_neg (by omega)]
  unfold cleanRoomName
  rw [hcl, if_neg (by omega)]

/-- Cleaning the empty string yields the empty string. -/
lemma clean_nil : cleanRoomName [] = [] := by rfl

/-- C10: for every input byte string, cleanRoomName returns either the
empty string or a string that starts with the hash byte, has length
between 2 and 20, contains no space byte, no uppercase ASCII byte and
none of the bytes removed by the symbol regex, contains no double dash
and does not end in a dash; consequently cleanRoomName is idempotent,
and an already-cleaned non-empty name is returned unchanged. -/
theorem c10_cleanRoomName_wellformed (l : List Nat) :
    (cleanRoomName l = [] ∨ GoodName (cleanRoomName l)) ∧
      cleanRoomName (cleanRoomName l) = cleanRoomName l := by
  refine ⟨clean_good l, ?_⟩
  rcases clean_good l with h | h
  · rw [h]
    exact clean_nil
  · exact clean_fixed _ h

/-- Reading the updated client of updCS. -/
@[simp] lemma updCS_cs_same (s : HubState) (c : Nat) (st : CState) :
    (updCS s c st).cs c = st := by
  simp [updCS]

/-- Reading another client of updCS. -/
lemma updCS_cs_other (s : HubState) (c : Nat) (st : CState) (x : Nat)
    (h : x ≠ c) : (updCS s c st).cs x = s.cs x := by
  simp [updCS, h]

/-- updCS leaves the room index unchanged. -/
@[simp] lemma updCS_rooms (s : HubState) (c : Nat) (st : CState) :
    (updCS s c st).rooms = s.rooms := rfl

/-- updCS leaves the client set unchanged. -/
@[simp] lemma updCS_clients (s : HubState) (c : Nat) (st : CState) :
    (updCS s c st).clients = s.clients := rfl

/-- updCS leaves the creation record unchanged. -/
@[simp] lemma updCS_seen (s : HubState) (c : Nat) (st : CState) :
    (updCS s c st).seen = s.seen := rfl

/-- updCS leaves every member list unchanged. -/
@[simp] lemma membersOf_updCS (s : HubState) (c : Nat) (st : CState)
    (r : Nat) : membersOf (updCS s c st) r = membersOf s r := rfl

/-- Reading the updated room of updRoom. -/
@[simp] lemma membersOf_updRoom_same (s : HubState) (r : Nat)
    (l : List Nat) : membersOf (updRoom s r l) r = l := by
  simp [membersOf, updRoom]

/-- Reading another room of updRoom. -/
lemma membersOf_updRoom_other (s : HubState) (r : Nat) (l : List Nat)
    (x : Nat) (h : x ≠ r) : membersOf (updRoom s r l) x = membersOf s x := by
  simp [membersOf, updRoom, h]

/-- updRoom leaves client structs unchanged. -/
@[simp] lemma updRoom_cs (s : HubState) (r : Nat) (l : List Nat) :
    (updRoom s r l).cs = s.cs := rfl

/-- updRoom leaves the client set unchanged. -/
@[simp] lemma updRoom_clients (s : HubState) (r : Nat) (l : List Nat) :
    (updRoom s r l).clients = s.clients := rfl

/-- updRoom leaves the creation record unchanged. -/
@[simp] lemma updRoom_seen (s : HubState) (r : Nat) (l : List Nat) :
    (updRoom s r l).seen = s.seen := rfl

/-- C3: a send_message is broadcast if and only if the sender is a
current member of the room, the content is non-empty and the
persistence call succeeds; when it is broadcast, the payload is exactly
the record the persistence call returned, so persistence happens before
the broadcast; a sender that is not a member of the room triggers no
persistence call and no broadcast, and a failed persistence call means
nothing is broadcast. -/
theorem c3_send_message_iff (s : HubState) (c room : Nat)
    (content : List Nat) (saveRes : Option Nat) :
    (∀ rec0, (handleSendMessage s c room content saveRes).2
        = some (room, rec0) ↔
      (room ∈ (s.cs c).crooms ∧ content ≠ [] ∧ saveRes = some rec0)) ∧
    (room ∉ (s.cs c).crooms →
      (handleSendMessage s c room content saveRes).1 = false ∧
      (handleSendMessage s c room content saveRes).2 = none) ∧
    (saveRes = none →
      (handleSendMessage s c room content saveRes).2 = none) := by
  unfold handleSendMessage
  refine ⟨?_, ?_, ?_⟩
  · intro rec0
    by_cases hc : content = []
    · simp [hc]
    · by_cases hm : room ∈ (s.cs c).crooms
      · cases saveRes with
        | none => simp [hc, hm]
        | some v =>
          simp only [if_neg hc, if_pos hm]
          constructor
          · intro hv
            simp at hv
            exact ⟨hm, hc, by rw [hv]⟩
          · intro ⟨_, _, hv⟩
            simp at hv
            simp [hv]
      · simp [hc, hm]
  · intro hm
    by_cases hc : content = [] <;> simp [hc, hm]
  · intro hs
    subst hs
    by_cases hc : content = [] <;> by_cases hm : room ∈ (s.cs c).crooms <;>
      simp [hc, hm]

/-- C3 witness: with a member sender, non-empty content and a
successful persistence call the broadcast of the persisted record is
emitted, and a non-member sender causes neither persistence nor
broadcast. -/
theorem c3_send_message_iff_witness :
    ((handleSendMessage
        (updCS initState 1 { initCState 0 with crooms := [7] }) 1 7 [104]
        (some 42)).2 = some (7, 42)) ∧
    ((handleSendMessage initState 2 9 [104] (some 42)).1 = false ∧
      (handleSendMessage initState 2 9 [104] (some 42)).2 = none) := by
  constructor
  · exact ((c3_send_message_iff
      (updCS initState 1 { initCState 0 with crooms := [7] }) 1 7 [104]
      (some 42)).1 42).mpr ⟨by simp, by simp, rfl⟩
  · exact (c3_send_message_iff initState 2 9 [104] (some 42)).2.1
      (by simp [initState, initCState])

/-- addClientToRoom only touches the membership map of the client; the
queue fields and the liveness timestamp of every client are unchanged. -/
lemma addClientToRoom_cs (s : HubState) (c r x : Nat) :
    ((addClientToRoom s c r).cs x).qbuf = (s.cs x).qbuf ∧
    ((addClientToRoom s c r).cs x).qcap = (s.cs x).qcap ∧
    ((addClientToRoom s c r).cs x).qclosed = (s.cs x).qclosed ∧
    ((addClientToRoom s c r).cs x).lastPing = (s.cs x).lastPing := by
  unfold addClientToRoom
  by_cases hm : c ∈ membersOf s r
  · simp [hm]
  · by_cases hx : x = c
    · subst hx
      simp [hm]
    · simp [hm, updCS_cs_other _ _ _ _ hx]

/-- removeClientFromRoom only touches the membership map of the client;
the queue fields and the liveness timestamp of every client are
unchanged. -/
lemma removeClientFromRoom_cs (s : HubState) (c r x : Nat) :
    ((removeClientFromRoom s c r).cs x).qbuf = (s.cs x).qbuf ∧
    ((removeClientFromRoom s c r).cs x).qcap = (s.cs x).qcap ∧
    ((removeClientFromRoom s c r).cs x).qclosed = (s.cs x).qclosed ∧
    ((removeClientFromRoom s c r).cs x).lastPing = (s.cs x).lastPing := by
  unfold removeClientFromRoom
  cases hr : s.rooms r with
  | none => simp
  | some l =>
    by_cases hx : x = c
    · by_cases hm : c ∈ l <;> simp [hm, hx]
    · by_cases hm : c ∈ l <;> simp [hm, updCS_cs_other _ _ _ _ hx]

/-- The state used to refute the liveness-refresh claim: client 1 was
created with liveness timestamp 5 and is a member of room 7. -/
def c4State : HubState :=
  updRoom (updCS initState 1 { initCState 5 with crooms := [7] }) 7 [1]

/-- C4 counterexample: the claim says the liveness timestamp is
refreshed whenever any inbound message is decoded, but decoding a
leave_room message at time 100 leaves the timestamp at 5 even though
the message is processed (the client does leave room 7), so the claim
fails for every non-ping command type. -/
theorem c4_counterexample :
    (((handleMessage c4State 1 (InMsg.leaveRoom 7) 100).1.cs 1).lastPing
      = 5) ∧
    ((5 : Nat) ≠ 100) ∧
    (1 ∉ membersOf (handleMessage c4State 1 (InMsg.leaveRoom 7) 100).1 7) := by
  refine ⟨?_, by omega, ?_⟩ <;>
    simp [handleMessage, handleLeaveRoom, removeClientFromRoom, c4State,
      updRoom, updCS, initState, initCState, membersOf]

/-- C4 amended: the liveness timestamp of a connection is refreshed by
a liveness-probe (pong) response and by a decoded ping application
message, and by nothing else; the UpdateUserLastSeen collaborator is
called exactly for a decoded ping message.  (In the source only the
pong handler of readPump and the ping case of handleMessage write
lastPing; the other command types leave it untouched.) -/
theorem c4_liveness_refresh (s : HubState) (c : Nat) (m : InMsg)
    (now : Nat) :
    ((handleMessage s c m now).1.cs c).lastPing =
      (if isPing m then now else (s.cs c).lastPing) ∧
    (handleMessage s c m now).2 = isPing m ∧
    ((pongStep s c now).cs c).lastPing = now := by
  refine ⟨?_, ?_, by simp [pongStep]⟩
  · cases m with
    | joinRoom hall room mres rres =>
      show ((handleJoinRoom s c hall room mres rres).cs c).lastPing
        = (s.cs c).lastPing
      unfold handleJoinRoom
      cases mres with
      | none => rfl
      | some b =>
        cases b with
        | false => rfl
        | true =>
          cases rres with
          | none => rfl
          | some h =>
            by_cases hh : h = hall
            · simp [hh, (addClientToRoom_cs s c room c).2.2.2]
            · simp [hh]
    | leaveRoom room =>
      exact (removeClientFromRoom_cs s c room c).2.2.2
    | sendMessage room content saveRes => simp [handleMessage, isPing]
    | pingMsg => simp [handleMessage, isPing, pingStep]
    | unknown => simp [handleMessage, isPing]
  · cases m <;> rfl

/-- After addClientToRoom the client is in the room's member list. -/
lemma addClientToRoom_self_mem (s : HubState) (c r : Nat) :
    c ∈ membersOf (addClientToRoom s c r) r := by
  unfold addClientToRoom
  by_cases hm : c ∈ membersOf s r
  · simp only [if_pos hm]
    exact hm
  · simp [hm]

/-- C8: a join_room command adds the connection-room association
exactly when the authorization collaborator confirms hall membership
(IsUserInHall returns true without error) and the room resolves to the
claimed hall (GetRoomByID succeeds with matching HallID); on success
the whole effect is addClientToRoom and no outbound queue is touched
(nothing is sent back), and on any failing check the command is a
complete no-op on the hub state. -/
theorem c8_join_checks (s : HubState) (c hall room : Nat)
    (mres : Option Bool) (rres : Option Nat) :
    (mres = some true ∧ rres = some hall →
      handleJoinRoom s c hall room mres rres = addClientToRoom s c room ∧
      c ∈ membersOf (handleJoinRoom s c hall room mres rres) room ∧
      (∀ x, ((handleJoinRoom s c hall room mres rres).cs x).qbuf
          = (s.cs x).qbuf ∧
        ((handleJoinRoom s c hall room mres rres).cs x).qclosed
          = (s.cs x).qclosed)) ∧
    (¬(mres = some true ∧ rres = some hall) →
      handleJoinRoom s c hall room mres rres = s) := by
  constructor
  · rintro ⟨hm, hr⟩
    subst hm
    subst hr
    have he : handleJoinRoom s c hall room (some true) (some hall)
        = addClientToRoom s c room := by
      simp [handleJoinRoom]
    refine ⟨he, ?_, ?_⟩
    · rw [he]
      exact addClientToRoom_self_mem s c room
    · intro x
      rw [he]
      exact ⟨(addClientToRoom_cs s c room x).1,
        (addClientToRoom_cs s c room x).2.2.1⟩
  · intro hn
    cases mres with
    | none => rfl
    | some b =>
      cases b with
      | false => rfl
      | true =>
        cases rres with
        | none => rfl
        | some h =>
          by_cases hh : h = hall
          · exact absurd ⟨rfl, by rw [hh]⟩ hn
          · simp [handleJoinRoom, hh]

/-- C8 witness: with both checks passing, client 1 ends up in room 7,
and with a failing membership check the state is untouched. -/
theorem c8_join_checks_witness :
    (handleJoinRoom initState 1 5 7 (some true) (some 5)
      = addClientToRoom initState 1 7) ∧
    (1 ∈ membersOf (handleJoinRoom initState 1 5 7 (some true) (some 5)) 7) ∧
    (handleJoinRoom initState 1 5 7 (some false) (some 5) = initState) :=
  ⟨((c8_join_checks initState 1 5 7 (some true) (some 5)).1 ⟨rfl, rfl⟩).1,
    ((c8_join_checks initState 1 5 7 (some true) (some 5)).1 ⟨rfl, rfl⟩).2.1,
    (c8_join_checks initState 1 5 7 (some false) (some 5)).2 (by simp)⟩

/-- Rewriting a client struct to its own value changes nothing. -/
lemma updCS_self (s : HubState) (c : Nat) : updCS s c (s.cs c) = s := by
  unfold updCS
  have h : (fun x => if x = c then s.cs c else s.cs x) = s.cs :=
    funext (fun x => by by_cases hx : x = c <;> simp [hx])
  rw [h]

/-- removeClientFromRoom never touches the client set. -/
lemma removeClientFromRoom_clients (s : HubState) (c r : Nat) :
    (removeClientFromRoom s c r).clients = s.clients := by
  unfold removeClientFromRoom
  cases s.rooms r with
  | none => rfl
  | some l => by_cases hm : c ∈ l <;> simp [hm]

/-- removeClientFromRoom never touches the creation record. -/
lemma removeClientFromRoom_seen (s : HubState) (c r : Nat) :
    (removeClientFromRoom s c r).seen = s.seen := by
  unfold removeClientFromRoom
  cases s.rooms r with
  | none => rfl
  | some l => by_cases hm : c ∈ l <;> simp [hm]

/-- Folding room removals never touches the client set. -/
lemma foldRemove_clients (c : Nat) (κ : List Nat) (t : HubState) :
    ((κ.foldl (fun u r => removeClientFromRoom u c r) t)).clients
      = t.clients := by
  induction κ generalizing t with
  | nil => rfl
  | cons r κ ih => rw [List.foldl_cons, ih, removeClientFromRoom_clients]

/-- C7: leaving a room of which the connection is not a member (in a
state where neither side of the association is present) changes nothing
at all, and a second unregister of the same connection after a
completed one is a no-op, so the send channel is not closed twice. -/
theorem c7_leave_noop_remove_idempotent :
    (∀ s c r, c ∉ membersOf s r → r ∉ (s.cs c).crooms →
      handleLeaveRoom s c r = s) ∧
    (∀ s c s1, unregStep s c = some s1 → unregStep s1 c = some s1) := by
  constructor
  · intro s c r hmem hcr
    unfold handleLeaveRoom removeClientFromRoom
    cases hr : s.rooms r with
    | none => rfl
    | some l =>
      have hcl : c ∉ l := by
        rw [show l = membersOf s r by rw [membersOf, hr]; rfl]
        exact hmem
      show updCS (if c ∈ l then updRoom s r (l.erase c) else s) c
        { s.cs c with
          crooms := (s.cs c).crooms.filter (fun y => y ≠ r) } = s
      rw [if_neg hcl]
      have hf : (s.cs c).crooms.filter (fun y => decide (y ≠ r))
          = (s.cs c).crooms := by
        refine List.filter_eq_self.mpr (fun a ha => ?_)
        simp only [decide_eq_true_eq]
        intro har
        exact hcr (har ▸ ha)
      simp only [hf]
      exact updCS_self s c
  · intro s c s1 h
    by_cases hc : c ∈ s.clients
    · rw [unregStep, if_pos hc] at h
      by_cases hq : (s.cs c).qclosed
      · rw [if_pos hq] at h
        exact absurd h (by simp)
      · rw [if_neg hq] at h
        have hs1 : s1.clients = s.clients.filter (fun x => x ≠ c) := by
          have := congrArg (fun o => (o.getD initState).clients) h
          simpa [foldRemove_clients] using this.symm
        have hnc : c ∉ s1.clients := by
          rw [hs1]
          simp
        rw [unregStep, if_neg hnc]
    · rw [unregStep, if_neg hc] at h
      have hs : s1 = s := by simpa using h.symm
      subst hs
      rw [unregStep, if_neg hc]

/-- Hub states used by the C7 witness: client 1 registered, then
unregistered. -/
def regState1 : HubState := (registerStep initState 1 0).getD initState

/-- The state after unregistering client 1 from regState1. -/
def unregState1 : HubState := (unregStep regState1 1).getD initState

/-- C7 witness: a leave for a non-member of room 7 in the empty hub is
a no-op, and a second unregister of client 1 returns the state of the
first unchanged. -/
theorem c7_leave_noop_remove_idempotent_witness :
    handleLeaveRoom initState 1 7 = initState ∧
    unregStep unregState1 1 = some unregState1 := by
  constructor
  · exact c7_leave_noop_remove_idempotent.1 initState 1 7
      (by simp [membersOf, initState]) (by simp [initState, initCState])
  · exact c7_leave_noop_remove_idempotent.2 regState1 1 unregState1 rfl

/-- Unfolding removeClientFromRoom on a nil slice. -/
lemma removeClientFromRoom_none (s : HubState) (c r : Nat)
    (hr : s.rooms r = none) : removeClientFromRoom s c r = s := by
  unfold removeClientFromRoom
  rw [hr]

/-- Unfolding removeClientFromRoom on a present slice. -/
lemma removeClientFromRoom_some (s : HubState) (c r : Nat) (l : List Nat)
    (hr : s.rooms r = some l) :
    removeClientFromRoom s c r =
      updCS (if c ∈ l then updRoom s r (l.erase c) else s) c
        { s.cs c with
          crooms := (s.cs c).crooms.filter (fun y => y ≠ r) } := by
  unfold removeClientFromRoom
  rw [hr]

/-- Member lists after addClientToRoom: the association (c, r) is
added, everything else is untouched. -/
lemma mem_membersOf_add (s : HubState) (c r d x : Nat) :
    d ∈ membersOf (addClientToRoom s c r) x ↔
      (d ∈ membersOf s x ∨ (d = c ∧ x = r)) := by
  unfold addClientToRoom
  by_cases hm : c ∈ membersOf s r
  · simp only [if_pos hm]
    constructor
    · exact Or.inl
    · rintro (h | ⟨hd, hx⟩)
      · exact h
      · rw [hd, hx]
        exact hm
  · simp only [if_neg hm, membersOf_updCS]
    by_cases hx : x = r
    · rw [hx, membersOf_updRoom_same]
      simp [hx]
    · rw [membersOf_updRoom_other _ _ _ _ hx]
      simp [hx]

/-- Client-side membership maps after addClientToRoom, in a consistent
state: the key r is added for c, everything else is untouched. -/
lemma mem_crooms_add (s : HubState) (c r d x : Nat)
    (hcons : Consistent s) :
    x ∈ ((addClientToRoom s c r).cs d).crooms ↔
      (x ∈ (s.cs d).crooms ∨ (d = c ∧ x = r)) := by
  unfold addClientToRoom
  by_cases hm : c ∈ membersOf s r
  · simp only [if_pos hm]
    constructor
    · exact Or.inl
    · rintro (h | ⟨hd, hx⟩)
      · exact h
      · rw [hd, hx]
        exact (hcons c r).mp hm
  · simp only [if_neg hm]
    by_cases hd : d = c
    · rw [hd, updCS_cs_same]
      by_cases h0 : r ∈ (s.cs c).crooms
      · rw [if_pos h0]
        constructor
        · exact Or.inl
        · rintro (h | ⟨_, hx⟩)
          · exact h
          · rw [hx]
            exact h0
      · rw [if_neg h0]
        simp only [List.mem_cons]
        constructor
        · rintro (h | h)
          · exact Or.inr ⟨by trivial, h⟩
          · exact Or.inl h
        · rintro (h | ⟨_, hx⟩)
          · exact Or.inr h
          · exact Or.inl hx
    · rw [updCS_cs_other _ _ _ _ hd]
      simp [hd]

/-- Member lists after removeClientFromRoom in a duplicate-free state:
the association (c, r) is removed, everything else is untouched. -/
lemma mem_membersOf_remove (s : HubState) (c r d x : Nat)
    (hnd : ∀ y, (membersOf s y).Nodup) :
    d ∈ membersOf (removeClientFromRoom s c r) x ↔
      (d ∈ membersOf s x ∧ ¬(d = c ∧ x = r)) := by
  cases hr : s.rooms r with
  | none =>
    rw [removeClientFromRoom_none s c r hr]
    constructor
    · intro h
      refine ⟨h, ?_⟩
      rintro ⟨hd, hx⟩
      rw [hd, hx, membersOf, hr] at h
      simp at h
    · exact fun h => h.1
  | some l =>
    have hlr : membersOf s r = l := by rw [membersOf, hr]; rfl
    rw [removeClientFromRoom_some s c r l hr, membersOf_updCS]
    by_cases hm : c ∈ l
    · rw [if_pos hm]
      by_cases hx : x = r
      · rw [hx, membersOf_updRoom_same]
        have hnl : l.Nodup := hlr ▸ hnd r
        rw [hnl.mem_erase_iff, ← hlr]
        constructor
        · rintro ⟨hdc, hdl⟩
          exact ⟨hdl, by rintro ⟨h1, _⟩; exact hdc h1⟩
        · rintro ⟨hdl, hn⟩
          exact ⟨fun hdc => hn ⟨hdc, by trivial⟩, hdl⟩
      · rw [membersOf_updRoom_other _ _ _ _ hx]
        simp [hx]
    · rw [if_neg hm]
      constructor
      · intro h
        refine ⟨h, ?_⟩
        rintro ⟨hd, hx⟩
        rw [hd, hx, hlr] at h
        exact hm h
      · exact fun h => h.1

/-- Client-side membership maps after removeClientFromRoom in a
consistent state: the key r is removed for c, everything else is
untouched. -/
lemma mem_crooms_remove (s : HubState) (c r d x : Nat)
    (hcons : Consistent s) :
    x ∈ ((removeClientFromRoom s c r).cs d).crooms ↔
      (x ∈ (s.cs d).crooms ∧ ¬(d = c ∧ x = r)) := by
  cases hr : s.rooms r with
  | none =>
    rw [removeClientFromRoom_none s c r hr]
    constructor
    · intro h
      refine ⟨h, ?_⟩
      rintro ⟨hd, hx⟩
      rw [hd, hx] at h
      have h2 := (hcons c r).mpr h
      rw [membersOf, hr] at h2
      simp at h2
    · exact fun h => h.1
  | some l =>
    rw [removeClientFromRoom_some s c r l hr]
    by_cases hd : d = c
    · rw [hd, updCS_cs_same]
      simp only [List.mem_filter, decide_eq_true_eq]
      constructor
      · rintro ⟨h1, h2⟩
        exact ⟨h1, by rintro ⟨_, hx⟩; exact h2 hx⟩
      · rintro ⟨h1, h2⟩
        exact ⟨h1, fun hx => h2 ⟨by trivial, hx⟩⟩
    · rw [updCS_cs_other _ _ _ _ hd]
      by_cases hm : c ∈ l
      · rw [if_pos hm, updRoom_cs]
        simp [hd]
      · rw [if_neg hm]
        simp [hd]

/-- addClientToRoom never touches the client set. -/
lemma addClientToRoom_clients (s : HubState) (c r : Nat) :
    (addClientToRoom s c r).clients = s.clients := by
  unfold addClientToRoom
  by_cases hm : c ∈ membersOf s r <;> simp [hm]

/-- addClientToRoom never touches the creation record. -/
lemma addClientToRoom_seen (s : HubState) (c r : Nat) :
    (addClientToRoom s c r).seen = s.seen := by
  unfold addClientToRoom
  by_cases hm : c ∈ membersOf s r <;> simp [hm]

/-- The empty hub satisfies the invariant. -/
lemma hubInv_init : HubInv initState := by
  refine ⟨?_, ?_, ?_, ?_, ?_⟩ <;>
    simp [Consistent, membersOf, initState, initCState]

/-- The invariant survives addClientToRoom for a created client. -/
lemma inv_add (s : HubState) (c r : Nat) (hinv : HubInv s)
    (hseen : s.seen c = true) : HubInv (addClientToRoom s c r) := by
  obtain ⟨hcons, hnd, hcl, hopen, huns⟩ := hinv
  refine ⟨?_, ?_, ?_, ?_, ?_⟩
  · intro d x
    rw [mem_membersOf_add s c r d x, mem_crooms_add s c r d x hcons,
      hcons d x]
  · intro x
    unfold addClientToRoom
    by_cases hm : c ∈ membersOf s r
    · rw [if_pos hm]
      exact hnd x
    · rw [if_neg hm, membersOf_updCS]
      by_cases hx : x = r
      · rw [hx, membersOf_updRoom_same]
        simp only [List.nodup_append, List.nodup_cons, List.not_mem_nil,
          not_false_eq_true, List.nodup_nil, and_true, true_and]
        exact ⟨hnd r, by simpa using hm⟩
      · rw [membersOf_updRoom_other _ _ _ _ hx]
        exact hnd x
  · rw [addClientToRoom_clients]
    exact hcl
  · intro d hdc
    rw [addClientToRoom_clients] at hdc
    rw [(addClientToRoom_cs s c r d).2.2.1]
    exact hopen d hdc
  · intro d hsd
    rw [addClientToRoom_seen] at hsd
    constructor
    · intro x
      rw [mem_membersOf_add]
      rintro (h | ⟨hdc2, _⟩)
      · exact (huns d hsd).1 x h
      · rw [hdc2] at hsd
        rw [hseen] at hsd
        exact absurd hsd (by simp)
    · rw [addClientToRoom_clients]
      exact (huns d hsd).2

/-- The invariant survives removeClientFromRoom. -/
lemma inv_remove (s : HubState) (c r : Nat) (hinv : HubInv s) :
    HubInv (removeClientFromRoom s c r) := by
  obtain ⟨hcons, hnd, hcl, hopen, huns⟩ := hinv
  refine ⟨?_, ?_, ?_, ?_, ?_⟩
  · intro d x
    rw [mem_membersOf_remove s c r d x hnd,
      mem_crooms_remove s c r d x hcons, hcons d x]
  · intro x
    cases hr : s.rooms r with
    | none =>
      rw [removeClientFromRoom_none s c r hr]
      exact hnd x
    | some l =>
      rw [removeClientFromRoom_some s c r l hr, membersOf_updCS]
      by_cases hm : c ∈ l
      · rw [if_pos hm]
        by_cases hx : x = r
        · rw [hx, membersOf_updRoom_same]
          have hnl : l.Nodup := by
            have := hnd r
            rw [membersOf, hr] at this
            exact this
          exact hnl.erase c
        · rw [membersOf_updRoom_other _ _ _ _ hx]
          exact hnd x
      · rw [if_neg hm]
        exact hnd x
  · rw [removeClientFromRoom_clients]
    exact hcl
  · intro d hdc
    rw [removeClientFromRoom_clients] at hdc
    rw [(removeClientFromRoom_cs s c r d).2.2.1]
    exact hopen d hdc
  · intro d hsd
    rw [removeClientFromRoom_seen] at hsd
    constructor
    · intro x
      rw [mem_membersOf_remove s c r d x hnd]
      rintro ⟨h, _⟩
      exact (huns d hsd).1 x h
    · rw [removeClientFromRoom_clients]
      exact (huns d hsd).2

/-- The invariant survives registering a fresh client. -/
lemma inv_register (s : HubState) (c now : Nat) (s1 : HubState)
    (hinv : HubInv s) (h : registerStep s c now = some s1) : HubInv s1 := by
  obtain ⟨hcons, hnd, hcl, hopen, huns⟩ := hinv
  unfold registerStep at h
  by_cases hs : s.seen c
  · rw [if_pos hs] at h
    exact absurd h (by simp)
  · rw [if_neg hs] at h
    have hs0 : s.seen c = false := by simpa using hs
    have hcm := (huns c hs0).1
    have hccl := (huns c hs0).2
    injection h with h2
    subst h2
    rw [if_neg hccl]
    refine ⟨?_, ?_, ?_, ?_, ?_⟩
    · intro d x
      show d ∈ membersOf s x ↔
        x ∈ ((if d = c then initCState now else s.cs d)).crooms
      by_cases hd : d = c
      · rw [if_pos hd]
        constructor
        · intro hmem
          rw [hd] at hmem
          exact absurd hmem (hcm x)
        · intro hcr
          simp [initCState] at hcr
      · rw [if_neg hd]
        exact hcons d x
    · intro x
      exact hnd x
    · exact List.Nodup.cons hccl hcl
    · intro d hd
      show (if d = c then initCState now else s.cs d).qclosed = false
      by_cases hdc : d = c
      · rw [if_pos hdc]
        rfl
      · rw [if_neg hdc]
        rcases List.mem_cons.mp hd with h1 | h1
        · exact absurd h1 hdc
        · exact hopen d h1
    · intro d hsd
      have hsd2 : (if d = c then true else s.seen d) = false := hsd
      by_cases hdc : d = c
      · rw [if_pos hdc] at hsd2
        exact absurd hsd2 (by simp)
      · rw [if_neg hdc] at hsd2
        refine ⟨(huns d hsd2).1, ?_⟩
        intro hdm
        rcases List.mem_cons.mp hdm with h1 | h1
        · exact hdc h1
        · exact (huns d hsd2).2 h1

/-- The invariant survives closing a client queue and deleting the
client from the live set (the shared tail of unregister and of the
broadcast-overflow eviction). -/
lemma inv_closeEvict (s : HubState) (c : Nat) (hinv : HubInv s) :
    HubInv (updCS { s with clients := s.clients.filter (fun x => x ≠ c) }
      c { s.cs c with qclosed := true }) := by
  obtain ⟨hcons, hnd, hcl, hopen, huns⟩ := hinv
  refine ⟨?_, ?_, ?_, ?_, ?_⟩
  · intro d x
    by_cases hd : d = c
    · rw [hd, membersOf_updCS, updCS_cs_same]
      exact hcons c x
    · rw [membersOf_updCS, updCS_cs_other _ _ _ _ hd]
      exact hcons d x
  · intro x
    rw [membersOf_updCS]
    exact hnd x
  · exact hcl.filter _
  · intro d hd
    have hd2 : d ∈ s.clients.filter (fun x => decide (x ≠ c)) := hd
    have hdf := List.mem_filter.mp hd2
    have hdc : d ≠ c := by simpa using hdf.2
    rw [updCS_cs_other _ _ _ _ hdc]
    exact hopen d hdf.1
  · intro d hsd
    have hsd2 : s.seen d = false := hsd
    constructor
    · intro x
      rw [membersOf_updCS]
      exact (huns d hsd2).1 x
    · intro hdc
      have hdf := List.mem_filter.mp
        (show d ∈ s.clients.filter (fun x => decide (x ≠ c)) from hdc)
      exact (huns d hsd2).2 hdf.1

/-- The invariant survives a client-struct rewrite that keeps the
membership map and the closed flag (liveness refresh, queue push,
queue drain). -/
lemma inv_updCS_compat (s : HubState) (c : Nat) (st : CState)
    (hinv : HubInv s) (hcr : st.crooms = (s.cs c).crooms)
    (hqc : st.qclosed = (s.cs c).qclosed) : HubInv (updCS s c st) := by
  obtain ⟨hcons, hnd, hcl, hopen, huns⟩ := hinv
  refine ⟨?_, ?_, hcl, ?_, ?_⟩
  · intro d x
    by_cases hd : d = c
    · rw [hd, membersOf_updCS, updCS_cs_same, hcr]
      exact hcons c x
    · rw [membersOf_updCS, updCS_cs_other _ _ _ _ hd]
      exact hcons d x
  · intro x
    rw [membersOf_updCS]
    exact hnd x
  · intro d hd
    by_cases hdc : d = c
    · rw [hdc, updCS_cs_same, hqc]
      exact hopen c (hdc ▸ hd)
    · rw [updCS_cs_other _ _ _ _ hdc]
      exact hopen d hd
  · intro d hsd
    refine ⟨fun x => ?_, (huns d hsd).2⟩
    rw [membersOf_updCS]
    exact (huns d hsd).1 x

/-- The invariant survives the removal fold of unregister. -/
lemma inv_foldRemove (c : Nat) (κ : List Nat) (t : HubState)
    (hinv : HubInv t) :
    HubInv (κ.foldl (fun u r => removeClientFromRoom u c r) t) := by
  induction κ generalizing t with
  | nil => exact hinv
  | cons r κ ih =>
    rw [List.foldl_cons]
    exact ih _ (inv_remove _ _ _ hinv)

/-- The invariant survives unregister. -/
lemma inv_unreg (s : HubState) (c : Nat) (s1 : HubState)
    (hinv : HubInv s) (h : unregStep s c = some s1) : HubInv s1 := by
  unfold unregStep at h
  by_cases hc : c ∈ s.clients
  · rw [if_pos hc] at h
    by_cases hq : (s.cs c).qclosed
    · rw [if_pos hq] at h
      exact absurd h (by simp)
    · rw [if_neg hq] at h
      injection h with h2
      subst h2
      exact inv_foldRemove c _ _ (inv_closeEvict s c hinv)
  · rw [if_neg hc] at h
    injection h with h2
    subst h2
    exact hinv

/-- After a panic the fan-out loop does nothing more. -/
lemma pushFold_none (msg : Nat) (L : List Nat) (ds : List (Nat × Nat)) :
    L.foldl (fun a c => pushOne msg a c) (none, ds) = (none, ds) := by
  induction L with
  | nil => rfl
  | cons c L ih =>
    rw [List.foldl_cons]
    exact ih

/-- The invariant survives every prefix of the broadcast fan-out
loop. -/
lemma inv_pushFold (msg : Nat) (L : List Nat) :
    ∀ (t : HubState) (ds : List (Nat × Nat)) (t1 : HubState),
      HubInv t →
      (L.foldl (fun a c => pushOne msg a c) (some t, ds)).1 = some t1 →
      HubInv t1 := by
  induction L with
  | nil =>
    intro t ds t1 hinv h
    simp at h
    rwa [← h]
  | cons c L ih =>
    intro t ds t1 hinv h
    rw [List.foldl_cons] at h
    by_cases hq : (t.cs c).qclosed
    · rw [show pushOne msg (some t, ds) c = (none, ds) by
        simp [pushOne, hq]] at h
      rw [pushFold_none] at h
      simp at h
    · by_cases hlen : (t.cs c).qbuf.length < (t.cs c).qcap
      · rw [show pushOne msg (some t, ds) c =
          (some (updCS t c
            { t.cs c with qbuf := (t.cs c).qbuf ++ [msg] }),
            ds ++ [(c, msg)]) by simp [pushOne, hq, hlen]] at h
        exact ih _ _ _ (inv_updCS_compat t c
          { t.cs c with qbuf := (t.cs c).qbuf ++ [msg] } hinv rfl rfl) h
      · rw [show pushOne msg (some t, ds) c =
          (some (updCS
            { t with clients := t.clients.filter (fun x => x ≠ c) } c
            { t.cs c with qclosed := true }), ds) by
          simp [pushOne, hq, hlen]] at h
        exact ih _ _ _ (inv_closeEvict t c hinv) h

/-- The invariant survives a broadcast that does not panic. -/
lemma inv_broadcast (s : HubState) (r msg : Nat) (s1 : HubState)
    (hinv : HubInv s) (h : (broadcastStep s r msg).1 = some s1) :
    HubInv s1 :=
  inv_pushFold msg (membersOf s r) s [] s1 hinv h

/-- After a panic the unregister fold of the sweep does nothing more. -/
lemma unregFold_none (L : List Nat) :
    L.foldl (fun o c => match o with
      | none => none
      | some u => unregStep u c) none = none := by
  induction L with
  | nil => rfl
  | cons c L ih =>
    rw [List.foldl_cons]
    exact ih

/-- The invariant survives any fold of unregister steps. -/
lemma inv_unregFold (L : List Nat) :
    ∀ (t t1 : HubState), HubInv t →
      L.foldl (fun o c => match o with
        | none => none
        | some u => unregStep u c) (some t) = some t1 →
      HubInv t1 := by
  induction L with
  | nil =>
    intro t t1 hinv h
    simp at h
    rwa [← h]
  | cons c L ih =>
    intro t t1 hinv h
    rw [List.foldl_cons] at h
    cases hu : unregStep t c with
    | none =>
      rw [show (match some t with
        | none => none
        | some u => unregStep u c) = unregStep t c from rfl, hu] at h
      rw [unregFold_none] at h
      simp at h
    | some u =>
      rw [show (match some t with
        | none => none
        | some u => unregStep u c) = unregStep t c from rfl, hu] at h
      exact ih u t1 (inv_unreg t c u hinv hu) h

/-- The invariant survives the health sweep with its evictions. -/
lemma inv_sweep (s : HubState) (now : Nat) (s1 : HubState)
    (hinv : HubInv s) (h : sweepAndReap s now = some s1) : HubInv s1 :=
  inv_unregFold (checkClientHealth s now) s s1 hinv h

/-- The invariant survives handleJoinRoom for a created client. -/
lemma inv_handleJoin (s : HubState) (c hall room : Nat)
    (mres : Option Bool) (rres : Option Nat) (hinv : HubInv s)
    (hseen : s.seen c = true) :
    HubInv (handleJoinRoom s c hall room mres rres) := by
  unfold handleJoinRoom
  cases mres with
  | none => exact hinv
  | some b =>
    cases b with
    | false => exact hinv
    | true =>
      cases rres with
      | none => exact hinv
      | some h =>
        show HubInv (if h = hall then addClientToRoom s c room else s)
        by_cases hh : h = hall
        · rw [if_pos hh]
          exact inv_add s c room hinv hseen
        · rw [if_neg hh]
          exact hinv

/-- The invariant survives every serialized command step. -/
lemma step_inv (s : HubState) (cmd : Cmd) (s1 : HubState)
    (hinv : HubInv s) (h : (stepD s cmd).1 = some s1) : HubInv s1 := by
  cases cmd with
  | register c now =>
    exact inv_register s c now s1 hinv h
  | unregister c =>
    exact inv_unreg s c s1 hinv h
  | broadcast r msg =>
    exact inv_broadcast s r msg s1 hinv h
  | join c hall room mres rres =>
    simp only [stepD] at h
    by_cases hs : s.seen c
    · rw [if_pos hs] at h
      injection h with h2
      subst h2
      exact inv_handleJoin s c hall room mres rres hinv hs
    · rw [if_neg hs] at h
      exact absurd h (by simp)
  | leave c room =>
    simp only [stepD] at h
    by_cases hs : s.seen c
    · rw [if_pos hs] at h
      injection h with h2
      subst h2
      exact inv_remove s c room hinv
    · rw [if_neg hs] at h
      exact absurd h (by simp)
  | ping c now =>
    simp only [stepD] at h
    by_cases hs : s.seen c
    · rw [if_pos hs] at h
      injection h with h2
      subst h2
      exact inv_updCS_compat s c _ hinv rfl rfl
    · rw [if_neg hs] at h
      exact absurd h (by simp)
  | pong c now =>
    simp only [stepD] at h
    by_cases hs : s.seen c
    · rw [if_pos hs] at h
      injection h with h2
      subst h2
      exact inv_updCS_compat s c _ hinv rfl rfl
    · rw [if_neg hs] at h
      exact absurd h (by simp)
  | drain c =>
    simp only [stepD] at h
    by_cases hs : s.seen c
    · rw [if_pos hs] at h
      injection h with h2
      subst h2
      exact inv_updCS_compat s c _ hinv rfl rfl
    · rw [if_neg hs] at h
      exact absurd h (by simp)
  | sweep now =>
    exact inv_sweep s now s1 hinv h

/-- Every reachable hub state satisfies the invariant. -/
lemma reachable_inv (s : HubState) (h : Reachable s) : HubInv s := by
  induction h with
  | init => exact hubInv_init
  | next ha hstep ih => exact step_inv _ _ _ ih hstep

/-- Hub state after registering client 1 and joining it to room 7 of
hall 5 with both collaborator checks passing. -/
def joinState1 : HubState :=
  handleJoinRoom regState1 1 5 7 (some true) (some 5)

/-- Registering client 1 is a command step from the empty hub. -/
lemma step_reg1 : (stepD initState (Cmd.register 1 0)).1 = some regState1 :=
  rfl

/-- Joining client 1 to room 7 is a command step from regState1. -/
lemma step_join1 :
    (stepD regState1 (Cmd.join 1 5 7 (some true) (some 5))).1
      = some joinState1 := rfl

/-- The two-step state is reachable. -/
lemma reachable_joinState1 : Reachable joinState1 :=
  Reachable.next (Reachable.next Reachable.init step_reg1) step_join1

/-- C2: in every reachable hub state (between command-loop steps) a
client is listed in a room's member slice exactly when the room is a
key of the client's own membership map, and every serialized command
step (join, leave, register, unregister, broadcast with its overflow
eviction, sweep, liveness updates) carries this bidirectional
consistency to the next state. -/
theorem c2_membership_consistency (s : HubState) (h : Reachable s) :
    Consistent s ∧
    (∀ cmd s1, (stepD s cmd).1 = some s1 → Consistent s1) := by
  have hinv := reachable_inv s h
  exact ⟨hinv.1, fun cmd s1 hstep => (step_inv s cmd s1 hinv hstep).1⟩

/-- C2 witness: in the reachable state where client 1 has joined room
7, both directions of the association agree, and the room is indeed
occupied. -/
theorem c2_membership_consistency_witness :
    (1 ∈ membersOf joinState1 7 ↔ 7 ∈ (joinState1.cs 1).crooms) ∧
    1 ∈ membersOf joinState1 7 :=
  ⟨(c2_membership_consistency joinState1 reachable_joinState1).1 1 7,
    by decide⟩

/-- C9: in every reachable hub state each room's member slice is
duplicate-free (a connection appears at most once per room), and
adding the same client to the same room twice yields exactly the state
of adding it once. -/
theorem c9_member_uniqueness :
    (∀ s, Reachable s → ∀ r, (membersOf s r).Nodup) ∧
    (∀ s c r, addClientToRoom (addClientToRoom s c r) c r
      = addClientToRoom s c r) := by
  constructor
  · intro s h r
    exact (reachable_inv s h).2.1 r
  · intro s c r
    have hmem := addClientToRoom_self_mem s c r
    show (if c ∈ membersOf (addClientToRoom s c r) r then
        addClientToRoom s c r
      else updCS (updRoom (addClientToRoom s c r) r
        (membersOf (addClientToRoom s c r) r ++ [c])) c
        { (addClientToRoom s c r).cs c with
          crooms := if r ∈ ((addClientToRoom s c r).cs c).crooms
            then ((addClientToRoom s c r).cs c).crooms
            else r :: ((addClientToRoom s c r).cs c).crooms })
      = addClientToRoom s c r
    rw [if_pos hmem]

/-- C9 witness: the member slice of room 7 after the two-step reachable
trace is duplicate-free, and the concrete double join collapses. -/
theorem c9_member_uniqueness_witness :
    (membersOf joinState1 7).Nodup ∧
    addClientToRoom (addClientToRoom initState 1 7) 1 7
      = addClientToRoom initState 1 7 :=
  ⟨c9_member_uniqueness.1 joinState1 reachable_joinState1 7,
    c9_member_uniqueness.2 initState 1 7⟩

/-- removeClientFromRoom leaves other client structs unchanged. -/
lemma removeClientFromRoom_cs_other (s : HubState) (c r d : Nat)
    (hd : d ≠ c) : (removeClientFromRoom s c r).cs d = s.cs d := by
  cases hr : s.rooms r with
  | none => rw [removeClientFromRoom_none s c r hr]
  | some l =>
    rw [removeClientFromRoom_some s c r l hr, updCS_cs_other _ _ _ _ hd]
    by_cases hm : c ∈ l
    · rw [if_pos hm]
      rfl
    · rw [if_neg hm]

/-- The removal fold of unregister leaves other client structs
unchanged. -/
lemma foldRemove_cs_other (c : Nat) (κ : List Nat) (d : Nat)
    (hd : d ≠ c) :
    ∀ t, ((κ.foldl (fun u r => removeClientFromRoom u c r) t)).cs d
      = t.cs d := by
  induction κ with
  | nil => exact fun t => rfl
  | cons r κ ih =>
    intro t
    rw [List.foldl_cons, ih, removeClientFromRoom_cs_other _ _ _ _ hd]

/-- The removal fold of unregister leaves the creation record
unchanged. -/
lemma foldRemove_seen (c : Nat) (κ : List Nat) :
    ∀ t, ((κ.foldl (fun u r => removeClientFromRoom u c r) t)).seen
      = t.seen := by
  induction κ with
  | nil => exact fun t => rfl
  | cons r κ ih =>
    intro t
    rw [List.foldl_cons, ih, removeClientFromRoom_seen]

/-- The removal fold of unregister leaves other clients' room
memberships unchanged. -/
lemma foldRemove_members_other (c : Nat) (κ : List Nat) :
    ∀ t, HubInv t → ∀ d x, d ≠ c →
      (d ∈ membersOf (κ.foldl (fun u r => removeClientFromRoom u c r) t) x
        ↔ d ∈ membersOf t x) := by
  induction κ with
  | nil => exact fun t _ d x _ => Iff.rfl
  | cons r κ ih =>
    intro t hinv d x hd
    rw [List.foldl_cons,
      ih (removeClientFromRoom t c r) (inv_remove t c r hinv) d x hd,
      mem_membersOf_remove t c r d x hinv.2.1]
    constructor
    · exact fun h => h.1
    · intro h
      exact ⟨h, by rintro ⟨h1, _⟩; exact hd h1⟩

/-- After the removal fold of unregister over the client's own room
list, the client's membership map retains only keys that were both
present initially and absent from the folded list. -/
lemma foldRemove_crooms (c : Nat) (κ : List Nat) :
    ∀ t, HubInv t → ∀ x,
      x ∈ (((κ.foldl (fun u r => removeClientFromRoom u c r) t)).cs c).crooms
        → (x ∈ (t.cs c).crooms ∧ x ∉ κ) := by
  induction κ with
  | nil => exact fun t _ x hx => ⟨hx, by simp⟩
  | cons r κ ih =>
    intro t hinv x hx
    rw [List.foldl_cons] at hx
    have h2 := ih (removeClientFromRoom t c r) (inv_remove t c r hinv) x hx
    have h3 := (mem_crooms_remove t c r c x hinv.1).mp h2.1
    refine ⟨h3.1, ?_⟩
    intro hxm
    rcases List.mem_cons.mp hxm with h4 | h4
    · exact h3.2 ⟨rfl, h4⟩
    · exact h2.2 h4

/-- Completed unregister of a live client: it succeeds, preserves the
invariant, leaves the client out of the live set and out of every room,
and touches nothing of any other client. -/
lemma unreg_post (s : HubState) (c : Nat) (hinv : HubInv s)
    (hc : c ∈ s.clients) :
    ∃ s1, unregStep s c = some s1 ∧ HubInv s1 ∧
      c ∉ s1.clients ∧ (∀ r, c ∉ membersOf s1 r) ∧
      (∀ d, d ≠ c → s1.cs d = s.cs d ∧
        (d ∈ s1.clients ↔ d ∈ s.clients) ∧
        (∀ r, d ∈ membersOf s1 r ↔ d ∈ membersOf s r)) := by
  have hq : (s.cs c).qclosed = false := hinv.2.2.2.1 c hc
  have hinvE := inv_closeEvict s c hinv
  refine ⟨((s.cs c).crooms).foldl (fun t r => removeClientFromRoom t c r)
    (updCS { s with clients := s.clients.filter (fun x => x ≠ c) } c
      { s.cs c with qclosed := true }), ?_, ?_, ?_, ?_, ?_⟩
  · unfold unregStep
    rw [if_pos hc, if_neg (by simp [hq])]
  · exact inv_foldRemove c _ _ hinvE
  · rw [foldRemove_clients]
    simp
  · intro r
    have hinv1 := inv_foldRemove c ((s.cs c).crooms) _ hinvE
    intro hmem
    have hcr := (hinv1.1 c r).mp hmem
    have h5 := foldRemove_crooms c ((s.cs c).crooms) _ hinvE r hcr
    rw [updCS_cs_same] at h5
    exact h5.2 h5.1
  · intro d hd
    refine ⟨?_, ?_, ?_⟩
    · rw [foldRemove_cs_other c _ d hd, updCS_cs_other _ _ _ _ hd]
    · rw [foldRemove_clients]
      show d ∈ s.clients.filter (fun x => decide (x ≠ c)) ↔ d ∈ s.clients
      rw [List.mem_filter]
      simp [hd]
    · intro r
      have h6 := foldRemove_members_other c ((s.cs c).crooms) _ hinvE d r hd
      rw [h6]
      exact Iff.rfl

/-- A fold of unregister steps over a duplicate-free list of live
clients: it succeeds, preserves the invariant, evicts each listed
client from the live set and from every room, and leaves every other
client untouched. -/
lemma unregFold_post (L : List Nat) :
    ∀ t, HubInv t → L.Nodup → (∀ c ∈ L, c ∈ t.clients) →
    ∃ t1, L.foldl (fun o c => match o with
        | none => none
        | some u => unregStep u c) (some t) = some t1 ∧
      HubInv t1 ∧
      (∀ c ∈ L, c ∉ t1.clients ∧ ∀ r, c ∉ membersOf t1 r) ∧
      (∀ d, d ∉ L → t1.cs d = t.cs d ∧
        (d ∈ t1.clients ↔ d ∈ t.clients) ∧
        (∀ r, d ∈ membersOf t1 r ↔ d ∈ membersOf t r)) := by
  induction L with
  | nil =>
    intro t hinv _ _
    exact ⟨t, rfl, hinv, by simp, fun d _ => ⟨rfl, Iff.rfl, fun r => Iff.rfl⟩⟩
  | cons c L ih =>
    intro t hinv hnd hin
    have hc : c ∈ t.clients := hin c (List.mem_cons_self c L)
    obtain ⟨u, hu, hinvu, hcnc, hcnm, hframe⟩ := unreg_post t c hinv hc
    have hcL : c ∉ L := (List.nodup_cons.mp hnd).1
    have hndL : L.Nodup := (List.nodup_cons.mp hnd).2
    have hinL : ∀ d ∈ L, d ∈ u.clients := by
      intro d hd
      have hdc : d ≠ c := fun he => hcL (he ▸ hd)
      exact ((hframe d hdc).2.1).mpr (hin d (List.mem_cons_of_mem c hd))
    obtain ⟨t1, h1, hinv1, hdead, hframe1⟩ := ih u hinvu hndL hinL
    refine ⟨t1, ?_, hinv1, ?_, ?_⟩
    · rw [List.foldl_cons,
        show (match some t with
          | none => none
          | some u => unregStep u c) = unregStep t c from rfl, hu]
      exact h1
    · intro d hd
      rcases List.mem_cons.mp hd with h2 | h2
      · have hf := hframe1 c hcL
        rw [h2]
        refine ⟨fun hm => hcnc (hf.2.1.mp hm), fun r hm => ?_⟩
        exact hcnm r ((hf.2.2 r).mp hm)
      · exact hdead d h2
    · intro d hdn
      have hdc : d ≠ c := fun he => hdn (he ▸ List.mem_cons_self c L)
      have hdL : d ∉ L := fun hm => hdn (List.mem_cons_of_mem c hm)
      have f1 := hframe d hdc
      have f2 := hframe1 d hdL
      exact ⟨f2.1.trans f1.1, f2.2.1.trans f1.2.1,
        fun r => (f2.2.2 r).trans (f1.2.2 r)⟩

/-- C6: the periodic health sweep (the 30-second ticker case of the
run loop) closes the transport of every live connection whose liveness
timestamp is older than the 60-second threshold, which deterministically
makes each such connection's read loop submit its Remove; after those
Removes are processed the stale connections are out of the live set and
out of every room, while every connection within the threshold keeps
its struct state, its live-set entry and all its room memberships. -/
theorem c6_health_sweep (s : HubState) (now : Nat) (hinv : HubInv s) :
    ∃ s1, sweepAndReap s now = some s1 ∧
      (∀ c ∈ s.clients, healthTimeout < now - (s.cs c).lastPing →
        c ∉ s1.clients ∧ ∀ r, c ∉ membersOf s1 r) ∧
      (∀ c ∈ s.clients, ¬healthTimeout < now - (s.cs c).lastPing →
        s1.cs c = s.cs c ∧ c ∈ s1.clients ∧
        (∀ r, c ∈ membersOf s1 r ↔ c ∈ membersOf s r)) := by
  have hnd : (checkClientHealth s now).Nodup := hinv.2.2.1.filter _
  have hin : ∀ c ∈ checkClientHealth s now, c ∈ s.clients :=
    fun c hc => (List.mem_filter.mp hc).1
  obtain ⟨t1, h1, hinv1, hdead, hframe⟩ :=
    unregFold_post (checkClientHealth s now) s hinv hnd hin
  refine ⟨t1, h1, ?_, ?_⟩
  · intro c hc hstale
    exact hdead c (List.mem_filter.mpr ⟨hc, by simpa using hstale⟩)
  · intro c hc hfresh
    have hnotin : c ∉ checkClientHealth s now := by
      intro hm
      exact hfresh (by simpa using (List.mem_filter.mp hm).2)
    have hf := hframe c hnotin
    exact ⟨hf.1, hf.2.1.mpr hc, hf.2.2⟩

/-- Hub state with client 1 registered at time 0 and client 2
registered at time 90. -/
def regState2 : HubState := (registerStep regState1 2 90).getD initState

/-- Registering client 2 is a command step from regState1. -/
lemma step_reg2 : (stepD regState1 (Cmd.register 2 90)).1 = some regState2 :=
  rfl

/-- The two-client state is reachable. -/
lemma reachable_regState2 : Reachable regState2 :=
  Reachable.next (Reachable.next Reachable.init step_reg1) step_reg2

/-- C6 witness: sweeping the two-client state at time 100 evicts the
stale client 1 (idle for 100 seconds) and keeps the fresh client 2
(idle for 10 seconds). -/
theorem c6_health_sweep_witness :
    ∃ s1, sweepAndReap regState2 100 = some s1 ∧ 1 ∉ s1.clients ∧
      2 ∈ s1.clients := by
  obtain ⟨s1, h1, hdead, hfresh⟩ := c6_health_sweep regState2 100
    (reachable_inv regState2 reachable_regState2)
  refine ⟨s1, h1, ?_, ?_⟩
  · exact (hdead 1 (by decide) (by decide)).1
  · exact (hfresh 2 (by decide) (by decide)).2.1

/-- A connection whose struct exists and whose send channel is closed:
the post-state of a completed Remove. -/
def Dead (s : HubState) (c : Nat) : Prop :=
  s.seen c = true ∧ (s.cs c).qclosed = true

/-- The removal fold of unregister never touches the closed flag of
the unregistered client. -/
lemma foldRemove_qclosed (c : Nat) (κ : List Nat) :
    ∀ t, (((κ.foldl (fun u r => removeClientFromRoom u c r) t)).cs c).qclosed
      = ((t.cs c)).qclosed := by
  induction κ with
  | nil => exact fun t => rfl
  | cons r κ ih =>
    intro t
    rw [List.foldl_cons, ih, (removeClientFromRoom_cs t c r c).2.2.1]

/-- A client-struct rewrite that keeps the closed flag keeps a dead
client dead. -/
lemma dead_updCS (s : HubState) (c d : Nat) (st : CState) (hd : Dead s c)
    (hq : st.qclosed = (s.cs d).qclosed) : Dead (updCS s d st) c := by
  constructor
  · show (updCS s d st).seen c = true
    rw [updCS_seen]
    exact hd.1
  · by_cases hcd : c = d
    · rw [hcd, updCS_cs_same, hq, ← hcd]
      exact hd.2
    · rw [updCS_cs_other _ _ _ _ hcd]
      exact hd.2

/-- handleJoinRoom never touches the creation record. -/
lemma handleJoin_seen (s : HubState) (c hall room : Nat)
    (mres : Option Bool) (rres : Option Nat) :
    (handleJoinRoom s c hall room mres rres).seen = s.seen := by
  unfold handleJoinRoom
  cases mres with
  | none => rfl
  | some b =>
    cases b with
    | false => rfl
    | true =>
      cases rres with
      | none => rfl
      | some h =>
        show (if h = hall then addClientToRoom s c room else s).seen = s.seen
        by_cases hh : h = hall
        · rw [if_pos hh, addClientToRoom_seen]
        · rw [if_neg hh]

/-- handleJoinRoom never touches any closed flag. -/
lemma handleJoin_qclosed (s : HubState) (c hall room x : Nat)
    (mres : Option Bool) (rres : Option Nat) :
    ((handleJoinRoom s c hall room mres rres).cs x).qclosed
      = (s.cs x).qclosed := by
  unfold handleJoinRoom
  cases mres with
  | none => rfl
  | some b =>
    cases b with
    | false => rfl
    | true =>
      cases rres with
      | none => rfl
      | some h =>
        show ((if h = hall then addClientToRoom s c room else s).cs x).qclosed
          = (s.cs x).qclosed
        by_cases hh : h = hall
        · rw [if_pos hh, (addClientToRoom_cs s c room x).2.2.1]
        · rw [if_neg hh]

/-- An unregister of any client keeps a dead client dead. -/
lemma unreg_dead (s : HubState) (d c : Nat) (hd : Dead s c)
    (s1 : HubState) (h : unregStep s d = some s1) : Dead s1 c := by
  unfold unregStep at h
  by_cases hdc : d ∈ s.clients
  · rw [if_pos hdc] at h
    by_cases hq : (s.cs d).qclosed
    · rw [if_pos hq] at h
      exact absurd h (by simp)
    · rw [if_neg hq] at h
      injection h with h2
      subst h2
      have hcd : c ≠ d := by
        intro he
        rw [he] at hd
        exact hq hd.2
      constructor
      · rw [foldRemove_seen]
        exact hd.1
      · rw [foldRemove_cs_other d _ c hcd, updCS_cs_other _ _ _ _ hcd]
        exact hd.2
  · rw [if_neg hdc] at h
    injection h with h2
    subst h2
    exact hd

/-- A fold of unregister steps keeps a dead client dead. -/
lemma unregFold_dead (c : Nat) (L : List Nat) :
    ∀ t, Dead t c → ∀ t1,
      L.foldl (fun o d => match o with
        | none => none
        | some u => unregStep u d) (some t) = some t1 → Dead t1 c := by
  induction L with
  | nil =>
    intro t hd t1 h
    simp at h
    rwa [← h]
  | cons d L ih =>
    intro t hdd t1 h
    rw [List.foldl_cons,
      show (match some t with
        | none => none
        | some u => unregStep u d) = unregStep t d from rfl] at h
    cases hu : unregStep t d with
    | none =>
      rw [hu, unregFold_none] at h
      simp at h
    | some u =>
      rw [hu] at h
      exact ih u (unreg_dead t d c hdd u hu) t1 h

/-- The broadcast fan-out loop never delivers to a dead client and
keeps it dead. -/
lemma pushFold_dead (msg c : Nat) (L : List Nat) :
    ∀ t ds, Dead t c → (∀ p ∈ ds, p.1 ≠ c) →
      (∀ p ∈ (L.foldl (fun a d => pushOne msg a d) (some t, ds)).2,
        p.1 ≠ c) ∧
      (∀ t1, (L.foldl (fun a d => pushOne msg a d) (some t, ds)).1
        = some t1 → Dead t1 c) := by
  induction L with
  | nil =>
    intro t ds hd hds
    refine ⟨hds, fun t1 h => ?_⟩
    simp at h
    rwa [← h]
  | cons d L ih =>
    intro t ds hdd hds
    rw [List.foldl_cons]
    by_cases hq : (t.cs d).qclosed
    · rw [show pushOne msg (some t, ds) d = (none, ds) by
        simp [pushOne, hq]]
      rw [pushFold_none]
      exact ⟨hds, fun t1 h => by simp at h⟩
    · by_cases hlen : (t.cs d).qbuf.length < (t.cs d).qcap
      · rw [show pushOne msg (some t, ds) d =
          (some (updCS t d
            { t.cs d with qbuf := (t.cs d).qbuf ++ [msg] }),
            ds ++ [(d, msg)]) by simp [pushOne, hq, hlen]]
        have hdc : d ≠ c := by
          intro he
          rw [he] at hq
          exact hq hdd.2
        refine ih _ _ (dead_updCS t c d _ hdd rfl) ?_
        intro p hp
        rcases List.mem_append.mp hp with h1 | h1
        · exact hds p h1
        · simp at h1
          rw [h1]
          exact hdc
      · rw [show pushOne msg (some t, ds) d =
          (some (updCS
            { t with clients := t.clients.filter (fun x => x ≠ d) } d
            { t.cs d with qclosed := true }), ds) by
          simp [pushOne, hq, hlen]]
        refine ih _ _ ?_ hds
        constructor
        · show (updCS _ d _).seen c = true
          rw [updCS_seen]
          exact hdd.1
        · by_cases hcd : c = d
          · rw [hcd, updCS_cs_same]
          · rw [updCS_cs_other _ _ _ _ hcd]
            exact hdd.2

/-- A dead client stays dead across any serialized command step and
receives no delivery from it. -/
lemma step_dead (c : Nat) (s : HubState) (cmd : Cmd) (hd : Dead s c) :
    (∀ p ∈ (stepD s cmd).2, p.1 ≠ c) ∧
    (∀ s1, (stepD s cmd).1 = some s1 → Dead s1 c) := by
  cases cmd with
  | register d now =>
    refine ⟨by simp [stepD], ?_⟩
    intro s1 h
    simp only [stepD] at h
    unfold registerStep at h
    by_cases hsd : s.seen d
    · rw [if_pos hsd] at h
      exact absurd h (by simp)
    · rw [if_neg hsd] at h
      injection h with h2
      subst h2
      have hcd : c ≠ d := by
        intro he
        exact hsd (he ▸ hd.1)
      constructor
      · show (if c = d then true else s.seen c) = true
        rw [if_neg hcd]
        exact hd.1
      · show ((if c = d then initCState now else s.cs c)).qclosed = true
        rw [if_neg hcd]
        exact hd.2
  | unregister d =>
    exact ⟨by simp [stepD], fun s1 h => unreg_dead s d c hd s1 h⟩
  | broadcast r msg =>
    exact pushFold_dead msg c (membersOf s r) s [] hd (by simp)
  | join d hall room mres rres =>
    refine ⟨by simp [stepD], ?_⟩
    intro s1 h
    simp only [stepD] at h
    by_cases hsd : s.seen d
    · rw [if_pos hsd] at h
      injection h with h2
      subst h2
      exact ⟨by rw [handleJoin_seen]; exact hd.1,
        by rw [handleJoin_qclosed]; exact hd.2⟩
    · rw [if_neg hsd] at h
      exact absurd h (by simp)
  | leave d room =>
    refine ⟨by simp [stepD], ?_⟩
    intro s1 h
    simp only [stepD] at h
    by_cases hsd : s.seen d
    · rw [if_pos hsd] at h
      injection h with h2
      subst h2
      refine ⟨?_, ?_⟩
      · show (removeClientFromRoom s d room).seen c = true
        rw [removeClientFromRoom_seen]
        exact hd.1
      · show ((removeClientFromRoom s d room).cs c).qclosed = true
        rw [(removeClientFromRoom_cs s d room c).2.2.1]
        exact hd.2
    · rw [if_neg hsd] at h
      exact absurd h (by simp)
  | ping d now =>
    refine ⟨by simp [stepD], ?_⟩
    intro s1 h
    simp only [stepD] at h
    by_cases hsd : s.seen d
    · rw [if_pos hsd] at h
      injection h with h2
      subst h2
      exact dead_updCS s c d _ hd rfl
    · rw [if_neg hsd] at h
      exact absurd h (by simp)
  | pong d now =>
    refine ⟨by simp [stepD], ?_⟩
    intro s1 h
    simp only [stepD] at h
    by_cases hsd : s.seen d
    · rw [if_pos hsd] at h
      injection h with h2
      subst h2
      exact dead_updCS s c d _ hd rfl
    · rw [if_neg hsd] at h
      exact absurd h (by simp)
  | drain d =>
    refine ⟨by simp [stepD], ?_⟩
    intro s1 h
    simp only [stepD] at h
    by_cases hsd : s.seen d
    · rw [if_pos hsd] at h
      injection h with h2
      subst h2
      exact dead_updCS s c d _ hd rfl
    · rw [if_neg hsd] at h
      exact absurd h (by simp)
  | sweep now =>
    exact ⟨by simp [stepD], fun s1 h => unregFold_dead c _ s hd s1 h⟩

/-- No delivery of a whole command trace ever targets a dead client. -/
lemma runTrace_dead (c : Nat) (cmds : List Cmd) :
    ∀ s, Dead s c → ∀ p ∈ (runTrace s cmds).2, p.1 ≠ c := by
  induction cmds with
  | nil =>
    intro s _ p hp
    simp [runTrace] at hp
  | cons cmd rest ih =>
    intro s hd p hp
    have hstep := step_dead c s cmd hd
    cases hst : stepD s cmd with
    | mk o ds =>
      cases o with
      | none =>
        rw [show runTrace s (cmd :: rest) = (none, ds) by
          rw [runTrace, hst]] at hp
        exact hstep.1 p (by rw [hst]; exact hp)
      | some s1 =>
        rw [show runTrace s (cmd :: rest)
            = ((runTrace s1 rest).1, ds ++ (runTrace s1 rest).2) by
          rw [runTrace, hst]] at hp
        rcases List.mem_append.mp hp with h1 | h1
        · exact hstep.1 p (by rw [hst]; exact h1)
        · exact ih s1 (hstep.2 s1 (by rw [hst])) p h1

/-- C5: once the Remove (unregister) command for a created connection
has completed — whether the connection was still live or had already
been overflow-evicted with its queue closed — no delivery performed by
any subsequently processed command trace, in particular by any
Broadcast command for any room, ever enqueues a message onto that
connection's outbound queue. -/
theorem c5_no_broadcast_after_remove (s : HubState) (c : Nat)
    (s1 : HubState) (ds : List (Nat × Nat)) (cmds : List Cmd)
    (hseen : s.seen c = true)
    (hlive : c ∈ s.clients ∨ (s.cs c).qclosed = true)
    (h : stepD s (Cmd.unregister c) = (some s1, ds)) :
    ∀ p ∈ (runTrace s1 cmds).2, p.1 ≠ c := by
  have hu : unregStep s c = some s1 := congrArg Prod.fst h
  have hdead : Dead s1 c := by
    unfold unregStep at hu
    by_cases hc : c ∈ s.clients
    · rw [if_pos hc] at hu
      by_cases hq : (s.cs c).qclosed
      · rw [if_pos hq] at hu
        exact absurd hu (by simp)
      · rw [if_neg hq] at hu
        injection hu with h2
        subst h2
        constructor
        · rw [foldRemove_seen]
          exact hseen
        · rw [foldRemove_qclosed, updCS_cs_same]
    · rw [if_neg hc] at hu
      injection hu with h2
      subst h2
      rcases hlive with h3 | h3
      · exact absurd h3 hc
      · exact ⟨hseen, h3⟩
  exact runTrace_dead c cmds s1 hdead

/-- C5 witness: after client 1 is removed, a later trace that registers
client 2, joins it to room 7 and broadcasts there delivers only to
client 2; the theorem applied at the delivered pair gives 2 ≠ 1. -/
theorem c5_no_broadcast_after_remove_witness :
    (runTrace unregState1 [Cmd.register 2 10,
      Cmd.join 2 5 7 (some true) (some 5), Cmd.broadcast 7 99]).2
      = [(2, 99)] ∧ (2 : Nat) ≠ 1 := by
  constructor
  · decide
  · exact c5_no_broadcast_after_remove regState1 1 unregState1 [] [Cmd.register 2 10,
      Cmd.join 2 5 7 (some true) (some 5), Cmd.broadcast 7 99]
      (by decide) (Or.inl (by decide)) rfl (2, 99) (by decide)

/-- The failing input for the overflow-eviction claim: clients 1 and 2
are live members of room 7; client 1's outbound queue is filled to its
admission capacity of 256.  (This state is what 256 broadcasts without
a write-pump drain produce from the two-client trace.) -/
def c1State : HubState :=
  { clients := [1, 2],
    rooms := fun x => if x = 7 then some [1, 2] else none,
    cs := fun x =>
      if x = 1 then
        { crooms := [7], qbuf := List.replicate 256 0, qcap := 256,
          qclosed := false, lastPing := 0 }
      else
        { crooms := if x = 2 then [7] else [], qbuf := [], qcap := 256,
          qclosed := false, lastPing := 0 },
    seen := fun x => decide (x = 1 ∨ x = 2) }

set_option maxRecDepth 4000 in
/-- C1, evaluated at the failing input: broadcasting to room 7 closes
client 1's full queue and removes it from the live-client set, and the
delivery to client 2 still succeeds — but client 1 is NOT removed from
room 7's member slice (nor does its own membership map forget room 7),
contradicting the claimed full eviction; a further broadcast to room 7
then sends on the closed channel, which panics the hub loop. -/
theorem c1_overflow_eviction_incomplete :
    ((broadcastStep c1State 7 5).2 = [(2, 5)]) ∧
    ((broadcastStep c1State 7 5).1.map (fun t =>
      ((t.cs 1).qclosed, decide (1 ∈ t.clients),
        decide (1 ∈ membersOf t 7), decide (7 ∈ (t.cs 1).crooms)))
      = some (true, false, true, true)) ∧
    ((broadcastStep ((broadcastStep c1State 7 5).1.getD initState) 7 6).1.isNone
      = true) := by decide
